import Mathlib

/-!
Shallow embedding of `trojai/datagen/insert_utils.py`: the validity-mask
engine (`pattern_fit`, `valid_location`, `valid_locations` with its five
per-channel strategies), together with theorems checking the
natural-language specification against it.

Numpy float arrays are modelled as total functions `Nat -> Nat -> Rat`
carrying explicit dimensions; boolean arrays as `Nat -> Nat -> Bool`.
Python slice assignment `a[r1:r2, c1:c2] = False` becomes a functional
update guarded by the slice bounds (negative indices resolved exactly as
Python resolves them, see `pyIdx`).
-/

namespace Trojai

/-- A 2-D boolean mask, indexed row/column. -/
abbrev Mask2 := Nat → Nat → Bool

/-- A 3-D boolean mask, indexed row/column/channel. -/
abbrev Mask3 := Nat → Nat → Nat → Bool

/-- Python resolution of a slice endpoint for a step-1 slice over an axis of
length `len`: a negative index counts from the end, and the result is clamped
into `[0, len]`. -/
def pyIdx (len : Nat) (x : Int) : Nat :=
  (max 0 (min (if x < 0 then x + len else x) len)).toNat

/-- Numpy truthiness of a float value: nonzero. -/
def truthy (v : ℚ) : Bool := v ≠ 0

/-- `valid_location` (insert_utils.py, lines 41-58): `False` iff some pixel of
the (bounds-clamped, as numpy slicing clamps) footprint slice
`chan_img[r:r+p_rows, c:c+p_cols]` is truthy. -/
def valid_location (chanImg : Nat → Nat → ℚ) (iRows iCols pRows pCols r c : Nat) : Bool :=
  !((List.range iRows).any fun i => (List.range iCols).any fun j =>
      decide (r ≤ i ∧ i < r + pRows ∧ c ≤ j ∧ j < c + pCols) && truthy (chanImg i j))

/-- `pattern_fit` (insert_utils.py, lines 17-38): fails closed when the
pattern footprint exceeds the image bounds, otherwise delegates to
`valid_location`. -/
def pattern_fit (chanImg : Nat → Nat → ℚ) (iRows iCols pRows pCols r c : Nat) : Bool :=
  if r + pRows > iRows || c + pCols > iCols then false
  else valid_location chanImg iRows iCols pRows pCols r c

/-- The per-channel background mask `mask = (chan_img <= min_val)`
(insert_utils.py, line 189). -/
def bgMask (chanImg : Nat → Nat → ℚ) (minVal : ℚ) : Mask2 :=
  fun i j => chanImg i j ≤ minVal

/-- `img_mask = np.logical_not(mask)` (line 192): foreground indicator. -/
def imgMask (chanImg : Nat → Nat → ℚ) (minVal : ℚ) : Mask2 :=
  fun i j => !(bgMask chanImg minVal i j)

/-- The nine offsets of a 3x3 window, as used by
`scipy.ndimage.filters.maximum_filter(..., 3, mode='constant', cval=0)`. -/
def offsets3 : List (Int × Int) :=
  [(-1, -1), (-1, 0), (-1, 1), (0, -1), (0, 0), (0, 1), (1, -1), (1, 0), (1, 1)]

/-- Read a boolean array at a possibly out-of-range integer position, with
constant padding `False` outside the array (scipy `mode='constant', cval=0`). -/
def padded (iRows iCols : Nat) (m : Mask2) (i j : Int) : Bool :=
  if 0 ≤ i ∧ i < iRows ∧ 0 ≤ j ∧ j < iCols then m i.toNat j.toNat else false

/-- `maximum_filter(img_mask, 3, mode='constant', cval=0)` on a boolean array:
the disjunction over the 3x3 window. -/
def maxFilter3 (iRows iCols : Nat) (m : Mask2) (i j : Nat) : Bool :=
  offsets3.any fun d => padded iRows iCols m (i + d.1) (j + d.2)

/-- `minimum_filter(img_mask, 3, mode='constant', cval=0)` on a boolean array:
the conjunction over the 3x3 window. -/
def minFilter3 (iRows iCols : Nat) (m : Mask2) (i j : Nat) : Bool :=
  offsets3.all fun d => padded iRows iCols m (i + d.1) (j + d.2)

/-- The edge-pixel indicator of lines 199-204:
`logical_and(logical_xor(maximum_filter(img_mask), minimum_filter(img_mask)), img_mask)`. -/
def isEdge (iRows iCols : Nat) (m : Mask2) (i j : Nat) : Bool :=
  xor (maxFilter3 iRows iCols m i j) (minFilter3 iRows iCols m i j) && m i j

/-- `np.nonzero` of the edge indicator: the edge pixels in row-major order
(line 205). -/
def edgePixels (iRows iCols : Nat) (m : Mask2) : List (Nat × Nat) :=
  (List.range iRows).flatMap fun i =>
    (List.range iCols).filterMap fun j =>
      if isEdge iRows iCols m i j then some (i, j) else none

/-- The working mask after lines 189-196: background classification followed
by removal of the bottom strip `mask[i_rows-p_rows+1 : i_rows, :]` and the
right strip `mask[:, i_cols-p_cols+1 : i_cols]`, with Python semantics for
the possibly negative slice starts. -/
def initMask (chanImg : Nat → Nat → ℚ) (minVal : ℚ) (iRows iCols pRows pCols : Nat) : Mask2 :=
  fun r c =>
    bgMask chanImg minVal r c
      && !decide (pyIdx iRows ((iRows : Int) - pRows + 1) ≤ r ∧ r < iRows)
      && !decide (pyIdx iCols ((iCols : Int) - pCols + 1) ≤ c ∧ c < iCols)

/-- Slice assignment `mask[r1:r2+1, c1:c2+1] = False` with integer (possibly
clamped-by-the-caller) inclusive bounds; mask rows/cols are naturals, so a
negative lower bound just means unconstrained from below. -/
def setFalseRect (m : Mask2) (r1 r2 c1 c2 : Int) : Mask2 :=
  fun r c =>
    if r1 ≤ (r : Int) ∧ (r : Int) ≤ r2 ∧ c1 ≤ (c : Int) ∧ (c : Int) ≤ c2 then false
    else m r c

/-- One step of the `brute_force` loop (lines 254-255):
`mask[max(0, i-p_rows+1):i+1, max(0, j-p_cols+1):j+1] = False`. -/
def invalidatePixel (pRows pCols : Nat) (m : Mask2) (p : Nat × Nat) : Mask2 :=
  setFalseRect m (max 0 ((p.1 : Int) - pRows + 1)) p.1 (max 0 ((p.2 : Int) - pCols + 1)) p.2

/-- The `brute_force` strategy (lines 253-255). -/
def bruteMask (chanImg : Nat → Nat → ℚ) (minVal : ℚ) (iRows iCols pRows pCols : Nat) : Mask2 :=
  (edgePixels iRows iCols (imgMask chanImg minVal)).foldl (invalidatePixel pRows pCols)
    (initMask chanImg minVal iRows iCols pRows pCols)

/-- `np.nonzero(mask)` over a 2-D boolean array: the true cells in row-major
order (line 261). -/
def trueCells (iRows iCols : Nat) (m : Mask2) : List (Nat × Nat) :=
  (List.range iRows).flatMap fun i =>
    (List.range iCols).filterMap fun j => if m i j then some (i, j) else none

/-- `np.mean(chan_img[i:i+p_rows, j:j+p_cols])` (line 277): the mean over the
bounds-clamped footprint slice. -/
def footMean (chanImg : Nat → Nat → ℚ) (iRows iCols pRows pCols i j : Nat) : ℚ :=
  let cells := (List.range iRows).flatMap fun a =>
    (List.range iCols).filterMap fun b =>
      if i ≤ a ∧ a < i + pRows ∧ j ≤ b ∧ b < j + pCols then some (chanImg a b) else none
  cells.sum / (cells.length : ℚ)

/-- The `threshold` strategy (lines 257-278): a first pass identical to
`brute_force`, then a loop over `np.nonzero(mask)` setting `mask[i][j] = True`
when the footprint mean is at most `threshold_val`. -/
def thresholdMask (chanImg : Nat → Nat → ℚ) (minVal thVal : ℚ)
    (iRows iCols pRows pCols : Nat) : Mask2 :=
  let bm := bruteMask chanImg minVal iRows iCols pRows pCols
  (trueCells iRows iCols bm).foldl
    (fun m p =>
      if footMean chanImg iRows iCols pRows pCols p.1 p.2 ≤ thVal then
        fun r c => if r = p.1 ∧ c = p.2 then true else m r c
      else m)
    bm

/-- `_get_bounding_box` (lines 109-130): tight bounding rectangle
`(left, top, width, height)` of the true cells of a boolean sub-array, or
`none` if it is all false. -/
def _get_bounding_box (rows cols : Nat) (m : Mask2) : Option (Nat × Nat × Nat × Nat) :=
  let rowIdx := (List.range rows).filter fun i => (List.range cols).any fun j => m i j
  let colIdx := (List.range cols).filter fun j => (List.range rows).any fun i => m i j
  match rowIdx, colIdx with
  | top :: rtl, left :: ctl =>
      let bottom := (top :: rtl).getLast (by simp)
      let right := (left :: ctl).getLast (by simp)
      some (left, top, right - left + 1, bottom - top + 1)
  | _, _ => none

/-- One grid cell of the `bounding_boxes` strategy (lines 282-293). -/
def bboxCell (chanImg : Nat → Nat → ℚ) (minVal : ℚ) (iRows iCols pRows pCols numBoxes : Nat)
    (m : Mask2) (i j : Nat) : Mask2 :=
  let left := (j * iCols) / numBoxes
  let top := (i * iRows) / numBoxes
  let right := ((j + 1) * iCols) / numBoxes
  let bottom := ((i + 1) * iRows) / numBoxes
  match _get_bounding_box (bottom - top) (right - left)
      (fun a b => imgMask chanImg minVal (top + a) (left + b)) with
  | some (x, y, w, h) =>
      setFalseRect m (max 0 ((top + y : Int) - pRows + 1)) ((top + y + h : Int) - 1)
        (max 0 ((left + x : Int) - pCols + 1)) ((left + x + w : Int) - 1)
  | none => m

/-- The `bounding_boxes` strategy (lines 280-293): a fold of `bboxCell` over
the `num_boxes x num_boxes` grid, in the source's loop order. -/
def bboxMask (chanImg : Nat → Nat → ℚ) (minVal : ℚ)
    (iRows iCols pRows pCols numBoxes : Nat) : Mask2 :=
  ((List.range numBoxes).flatMap fun i => (List.range numBoxes).map fun j => (i, j)).foldl
    (fun m p => bboxCell chanImg minVal iRows iCols pRows pCols numBoxes m p.1 p.2)
    (initMask chanImg minVal iRows iCols pRows pCols)

/-- The direction priority list of the edge-tracing walk
(insert_utils.py, line 14). -/
def DIRECTIONS : List (Int × Int) :=
  [(-1, -1), (-1, 1), (1, 1), (1, -1), (0, -1), (-1, 0), (0, 1), (1, 0)]

/-- The mutable set of still-unvisited edge pixels of one edge-tracing pass. -/
abbrev EdgeSet := Finset (Int × Int)

/-- `_get_edge_length_in_direction` (lines 61-86): walk from `(ci, cj)` in
direction `(di, dj)` while the next position is in bounds and still in the
edge set, removing each visited pixel; a diagonal walk stops after one step.
The `while` loop is bounded by fuel; since every iteration removes one
element of the set, fuel `s.card` makes the bounded loop agree with the
unbounded one. Returns the length together with the updated set. -/
def edgeLength (iRows iCols : Nat) (di dj : Int) :
    Nat → Int → Int → EdgeSet → Nat × EdgeSet
  | 0, _, _, s => (0, s)
  | fuel + 1, ci, cj, s =>
    if (0 ≤ ci + di ∧ ci + di < iRows ∧ 0 ≤ cj + dj ∧ cj + dj < iCols) ∧ (ci + di, cj + dj) ∈ s
    then
      let s2 := s.erase (ci + di, cj + dj)
      if di ≠ 0 ∧ dj ≠ 0 then (1, s2)
      else
        let r := edgeLength iRows iCols di dj fuel (ci + di) (cj + dj) s2
        (r.1 + 1, r.2)
    else (0, s)

/-- The direction scan of `_get_next_edge_from_pixel` (lines 101-106). -/
def nextEdgeScan (iRows iCols : Nat) (ci cj : Int) :
    List (Int × Int) → EdgeSet → Option (Int × Int) × EdgeSet
  | [], s => (none, s)
  | d :: ds, s =>
    let r := edgeLength iRows iCols d.1 d.2 s.card ci cj s
    if r.1 ≠ 0 then (some (d.1 * r.1, d.2 * r.1), r.2)
    else nextEdgeScan iRows iCols ci cj ds r.2

/-- `_get_next_edge_from_pixel` (lines 89-106). -/
def _get_next_edge_from_pixel (ci cj : Int) (iRows iCols : Nat) (s : EdgeSet) :
    Option (Int × Int) × EdgeSet :=
  nextEdgeScan iRows iCols ci cj DIRECTIONS s

/-- The incremental invalidation performed after a move of the edge-tracing
walk (lines 225-248), at the post-move position `(ci, cj)` with the move
vector `(ai, aj)`. -/
def applyMove (pRows pCols : Nat) (m : Mask2) (ai aj ci cj : Int) : Mask2 :=
  let ti := max 0 (ci - pRows + 1)
  let li := max 0 (cj - pCols + 1)
  let m1 :=
    if ai < 0 then setFalseRect m ti (ti - ai - 1) li cj
    else if ai > 0 then setFalseRect m (ci - ai + 1) ci li cj
    else m
  if aj < 0 then setFalseRect m1 ti ci li (li - aj - 1)
  else if aj > 0 then setFalseRect m1 ti ci (cj - aj + 1) cj
  else m1

/-- The inner `while move is not None` loop of the edge-tracing strategy
(lines 222-251), restructured so that each iteration first asks for the next
move and then applies its invalidation (the source's first iteration carries
the no-op move `(0, 0)`). Every productive iteration removes at least one
pixel from the set, so fuel `s.card + 1` realizes the unbounded loop. -/
def traceLoop (iRows iCols pRows pCols : Nat) :
    Nat → Int → Int → EdgeSet → Mask2 → EdgeSet × Mask2
  | 0, _, _, s, m => (s, m)
  | fuel + 1, ci, cj, s, m =>
    match _get_next_edge_from_pixel ci cj iRows iCols s with
    | (none, s2) => (s2, m)
    | (some a, s2) =>
        traceLoop iRows iCols pRows pCols fuel (ci + a.1) (cj + a.2) s2
          (applyMove pRows pCols m a.1 a.2 (ci + a.1) (cj + a.2))

/-- The outer `while len(edge_pixel_set) != 0` loop of the edge-tracing
strategy (lines 212-251): pop an arbitrary remaining pixel (the popping
choice is the `pick` parameter, since Python's `set.pop` order is
unspecified), invalidate its anchor rectangle, then trace from it. Each
round removes at least the popped pixel, so fuel `s.card` realizes the
unbounded loop whenever `pick` returns members. -/
def edgeTraceLoop (pick : EdgeSet → Int × Int) (iRows iCols pRows pCols : Nat) :
    Nat → EdgeSet → Mask2 → Mask2
  | 0, _, m => m
  | fuel + 1, s, m =>
    if s = ∅ then m
    else
      let p := pick s
      let s2 := s.erase p
      let m2 := setFalseRect m (max 0 (p.1 - pRows + 1)) p.1 (max 0 (p.2 - pCols + 1)) p.2
      let r := traceLoop iRows iCols pRows pCols (s2.card + 1) p.1 p.2 s2 m2
      edgeTraceLoop pick iRows iCols pRows pCols fuel r.1 r.2

/-- The initial edge set `set(zip(*np.nonzero(...)))` (lines 205, 210). -/
def edgeFinset (iRows iCols : Nat) (m : Mask2) : EdgeSet :=
  ((edgePixels iRows iCols m).map fun p => ((p.1 : Int), (p.2 : Int))).toFinset

/-- The `edge_tracing` strategy (lines 207-251). -/
def edgeTracingMask (pick : EdgeSet → Int × Int) (chanImg : Nat → Nat → ℚ) (minVal : ℚ)
    (iRows iCols pRows pCols : Nat) : Mask2 :=
  let s := edgeFinset iRows iCols (imgMask chanImg minVal)
  edgeTraceLoop pick iRows iCols pRows pCols s.card s
    (initMask chanImg minVal iRows iCols pRows pCols)

/-- A 3-D numeric array of shape `(rows, cols, chans)`, the model of the
`img` and `pattern` arguments of `valid_locations`. -/
structure Image3 where
  rows : Nat
  cols : Nat
  chans : Nat
  val : Nat → Nat → Nat → ℚ

/-- A numeric configuration field that is either a scalar
(`isinstance(x, (int, float))`) or a per-channel sequence. -/
inductive NumParam where
  | scalar : ℚ → NumParam
  | seq : List ℚ → NumParam

/-- The fields of `InsertAtRandomLocationConfig` read by `valid_locations`. -/
structure AlgoConfig where
  algorithm : String
  min_val : NumParam
  threshold_val : NumParam
  num_boxes : Nat

/-- The `allow_overlap` argument: a single boolean (broadcast over channels)
or a per-channel list. -/
inductive OverlapArg where
  | scalar : Bool → OverlapArg
  | seq : List Bool → OverlapArg

/-- Error message of a Python list access out of range: with a per-channel
`allow_overlap` list shorter than the channel count, `allow_overlap[chan_idx]`
at line 173 raises `IndexError: list index out of range`. -/
def indexMsg : String := "list index out of range"

/-- Effective `allow_overlap` value for channel `k`: a scalar is broadcast
over the channels by lines 156-157, a per-channel list is indexed directly
at line 173, raising `IndexError` when `k` is out of range. -/
def resolveOverlap : OverlapArg → Nat → Except String Bool
  | .scalar b, _ => .ok b
  | .seq l, k => if h : k < l.length then .ok (l.get ⟨k, h⟩) else .error indexMsg

/-- Error message of lines 159-163. -/
def chanMismatchMsg : String :=
  "The # of channels in the pattern does not match the # of channels in the image!"

/-- Error message of lines 184-187. -/
def minValSizeMsg : String :=
  "Size of min_val tuple does not correspond with the number of channels in the image!"

/-- Error message of lines 269-273. -/
def thresholdSizeMsg : String :=
  "Size of threshold_val tuple does not correspond with the number of channels in the image!"

/-- Error message of lines 297-300. -/
def wrapMsg : String := "Wrapping for trigger insertion has not been implemented yet!"

/-- Per-channel resolution of a scalar-or-sequence parameter
(lines 179-187 for `min_val`, lines 264-273 for `threshold_val`). -/
def resolveNum (p : NumParam) (numChans k : Nat) (emsg : String) : Except String ℚ :=
  match p with
  | .scalar v => .ok v
  | .seq l => if l.length = numChans then .ok (l.getD k 0) else .error emsg

/-- The `allow_overlap` branch (lines 173-176):
`output_mask[0:i_rows-p_rows+1, 0:i_cols-p_cols+1, chan] = True`, with Python
slice semantics for the possibly negative stops. -/
def allowOverlapMask (iRows iCols pRows pCols : Nat) : Mask2 :=
  fun r c =>
    decide (r < pyIdx iRows ((iRows : Int) - pRows + 1) ∧
      c < pyIdx iCols ((iCols : Int) - pCols + 1))

/-- The per-channel computation of `valid_locations` (lines 167-300):
dispatch on `allow_overlap` (whose list lookup can itself raise an
`IndexError`), `protect_wrap` and the algorithm tag. An
unrecognized algorithm tag leaves the working mask of lines 189-196
unchanged, as the source does. The result is the channel's slice of the
output mask, or the first error the source would raise for this channel. -/
def chanExcept (pick : EdgeSet → Int × Int) (img pattern : Image3) (cfg : AlgoConfig)
    (protectWrap : Bool) (allowOverlap : OverlapArg) (k : Nat) : Except String Mask2 :=
  let iRows := img.rows
  let iCols := img.cols
  let pRows := pattern.rows
  let pCols := pattern.cols
  let chanImg := fun i j => img.val i j k
  match resolveOverlap allowOverlap k with
  | .error e => .error e
  | .ok true => .ok (allowOverlapMask iRows iCols pRows pCols)
  | .ok false =>
    if protectWrap then
      match resolveNum cfg.min_val img.chans k minValSizeMsg with
      | .error e => .error e
      | .ok minVal =>
        if cfg.algorithm = "edge_tracing" then
          .ok (edgeTracingMask pick chanImg minVal iRows iCols pRows pCols)
        else if cfg.algorithm = "brute_force" then
          .ok (bruteMask chanImg minVal iRows iCols pRows pCols)
        else if cfg.algorithm = "threshold" then
          match resolveNum cfg.threshold_val img.chans k thresholdSizeMsg with
          | .error e => .error e
          | .ok thVal => .ok (thresholdMask chanImg minVal thVal iRows iCols pRows pCols)
        else if cfg.algorithm = "bounding_boxes" then
          .ok (bboxMask chanImg minVal iRows iCols pRows pCols cfg.num_boxes)
        else
          .ok (initMask chanImg minVal iRows iCols pRows pCols)
    else .error wrapMsg

/-- The first error raised by the channel loop of `valid_locations`, if any
(the source raises inside the loop over `range(num_chans)`, aborting at the
first offending channel). -/
def firstChanError (pick : EdgeSet → Int × Int) (img pattern : Image3) (cfg : AlgoConfig)
    (protectWrap : Bool) (allowOverlap : OverlapArg) : Option String :=
  (List.range img.chans).findSome? fun k =>
    match chanExcept pick img pattern cfg protectWrap allowOverlap k with
    | .error e => some e
    | .ok _ => none

/-- `valid_locations` (lines 133-302). The channel-count check of
lines 159-163 comes first; then the channels are processed in order, the
first error aborting the call; on success the per-channel masks are
assembled into the `np.zeros`-initialized output mask. The `pick` parameter
models the unspecified order of `set.pop` in the edge-tracing strategy and
is unused by every other algorithm. -/
def valid_locations (pick : EdgeSet → Int × Int) (img pattern : Image3) (cfg : AlgoConfig)
    (protectWrap : Bool) (allowOverlap : OverlapArg) : Except String Mask3 :=
  if pattern.chans ≠ img.chans then .error chanMismatchMsg
  else
    match firstChanError pick img pattern cfg protectWrap allowOverlap with
    | some e => .error e
    | none =>
      .ok fun r c k =>
        if r < img.rows ∧ c < img.cols ∧ k < img.chans then
          match chanExcept pick img pattern cfg protectWrap allowOverlap k with
          | .ok m => m r c
          | .error _ => false
        else false

/-- A concrete valid popping order for the edge-tracing walk: the pixel with
the least row index, and among those the least column index. Used to
instantiate theorems that hold for every popping order. -/
def pickMin (s : EdgeSet) : Int × Int :=
  if h : s.Nonempty then
    let i := (s.image Prod.fst).min' (h.image Prod.fst)
    (i, ((s.filter fun p => p.1 = i).image Prod.snd).min'
      (by
        obtain ⟨p, hp⟩ := Finset.mem_image.mp ((s.image Prod.fst).min'_mem (h.image Prod.fst))
        exact ⟨p.2, Finset.mem_image.mpr ⟨p, Finset.mem_filter.mpr ⟨hp.1, hp.2⟩, rfl⟩⟩))
  else (0, 0)

/-- The array state of one `valid_locations` call: the two argument arrays
and the output buffer. Every in-place numpy write of the source targets
either the per-channel working mask (a fresh array created by
`chan_img <= min_val`, modelled inside the per-channel strategy functions)
or the output buffer; this structure makes the buffer writes explicit so
that the frame over `img` and `pattern` can be stated. -/
structure VLState where
  img : Image3
  pattern : Image3
  out : Mask3

/-- `output_mask[:, :, chan_idx] = mask` (line 295 and lines 174-176): write
one channel's mask into the output buffer. -/
def writeChan (out : Mask3) (rows cols k : Nat) (m : Mask2) : Mask3 :=
  fun r c k2 => if k2 = k ∧ r < rows ∧ c < cols then m r c else out r c k2

/-- The channel loop of `valid_locations` threading the output buffer: each
channel either raises (aborting the loop) or writes its slice. -/
def chanFold (pick : EdgeSet → Int × Int) (img pattern : Image3) (cfg : AlgoConfig)
    (protectWrap : Bool) (allowOverlap : OverlapArg) :
    List Nat → Mask3 → Except String Mask3
  | [], out => .ok out
  | k :: ks, out =>
    match chanExcept pick img pattern cfg protectWrap allowOverlap k with
    | .error e => .error e
    | .ok m =>
      chanFold pick img pattern cfg protectWrap allowOverlap ks
        (writeChan out img.rows img.cols k m)

/-- `valid_locations` with the array state explicit: the channel-count check,
then `output_mask = np.zeros(img.shape, dtype=bool)` (a fresh buffer,
discarding whatever buffer the state held), then the channel loop writing
into that buffer. `img` and `pattern` are only ever read. -/
def valid_locations_state (pick : EdgeSet → Int × Int) (st : VLState) (cfg : AlgoConfig)
    (protectWrap : Bool) (allowOverlap : OverlapArg) : Except String VLState :=
  if st.pattern.chans ≠ st.img.chans then .error chanMismatchMsg
  else
    (chanFold pick st.img st.pattern cfg protectWrap allowOverlap
        (List.range st.img.chans) (fun _ _ _ => false)).map
      fun out => { img := st.img, pattern := st.pattern, out := out }

/-- The mask a successful channel computation yields (with an all-false
fallback on the dead error branch); used to state what the channel loop
writes. -/
def okMask (pick : EdgeSet → Int × Int) (img pattern : Image3) (cfg : AlgoConfig)
    (protectWrap : Bool) (allowOverlap : OverlapArg) (k : Nat) : Mask2 :=
  match chanExcept pick img pattern cfg protectWrap allowOverlap k with
  | .ok m => m
  | .error _ => fun _ _ => false

/-- Anchor-invalidation rectangle: `covers pRows pCols p r c` holds when the
anchor `(r, c)` lies in the rectangle of anchors whose footprint contains
pixel `p`, i.e. in `[max(0, p.1-pRows+1), p.1] x [max(0, p.2-pCols+1), p.2]`
(the clamping `max` is implicit since `r, c` are naturals). -/
def covers (pRows pCols : Nat) (p : Int × Int) (r c : Nat) : Prop :=
  p.1 - pRows + 1 ≤ (r : Int) ∧ (r : Int) ≤ p.1 ∧
    p.2 - pCols + 1 ≤ (c : Int) ∧ (c : Int) ≤ p.2

/-- The row strip written by `applyMove` for a vertical move component
`ai` ending at `(ci, cj)`: the slice
`mask[top_index : top_index - action_i, left_index : curr_j + 1]` when
`ai < 0`, or `mask[curr_i - action_i + 1 : curr_i + 1, ...]` when `ai > 0`. -/
def stripRowP (pRows pCols : Nat) (ai _aj ci cj : Int) (r c : Nat) : Prop :=
  (ai < 0 ∧ max 0 (ci - pRows + 1) ≤ (r : Int) ∧
      (r : Int) ≤ max 0 (ci - pRows + 1) - ai - 1 ∧
      max 0 (cj - pCols + 1) ≤ (c : Int) ∧ (c : Int) ≤ cj) ∨
  (0 < ai ∧ ci - ai + 1 ≤ (r : Int) ∧ (r : Int) ≤ ci ∧
      max 0 (cj - pCols + 1) ≤ (c : Int) ∧ (c : Int) ≤ cj)

/-- The column strip written by `applyMove` for a horizontal move component
`aj` ending at `(ci, cj)`. -/
def stripColP (pRows pCols : Nat) (_ai aj ci cj : Int) (r c : Nat) : Prop :=
  (aj < 0 ∧ max 0 (ci - pRows + 1) ≤ (r : Int) ∧ (r : Int) ≤ ci ∧
      max 0 (cj - pCols + 1) ≤ (c : Int) ∧
      (c : Int) ≤ max 0 (cj - pCols + 1) - aj - 1) ∨
  (0 < aj ∧ max 0 (ci - pRows + 1) ≤ (r : Int) ∧ (r : Int) ≤ ci ∧
      cj - aj + 1 ≤ (c : Int) ∧ (c : Int) ≤ cj)

/-- The concrete scenario of the spec's testable properties: a 10x10
single-channel image, zero except a 3x3 block of value 1 at rows 2..4 and
columns 2..4. -/
def scenarioImg : Image3 :=
  ⟨10, 10, 1, fun i j _ => if 2 ≤ i ∧ i ≤ 4 ∧ 2 ≤ j ∧ j ≤ 4 then 1 else 0⟩

/-- The 2x2 all-zero pattern of the concrete scenario. -/
def scenarioPattern : Image3 := ⟨2, 2, 1, fun _ _ _ => 0⟩

/-! ### Basic characterizations -/

lemma mem_edgePixels {iRows iCols : Nat} {m : Mask2} {i j : Nat} :
    (i, j) ∈ edgePixels iRows iCols m ↔
      i < iRows ∧ j < iCols ∧ isEdge iRows iCols m i j = true := by
  constructor
  · intro h
    simp only [edgePixels, List.mem_flatMap, List.mem_filterMap, List.mem_range] at h
    obtain ⟨a, ha, b, hb, hab⟩ := h
    by_cases he : isEdge iRows iCols m a b
    · simp only [he, if_true, Option.some.injEq, Prod.mk.injEq] at hab
      obtain ⟨rfl, rfl⟩ := hab
      exact ⟨ha, hb, he⟩
    · simp [he] at hab
  · rintro ⟨hi, hj, he⟩
    simp only [edgePixels, List.mem_flatMap, List.mem_filterMap, List.mem_range]
    exact ⟨i, hi, j, hj, by simp [he]⟩

lemma padded_at_nat {iRows iCols : Nat} {m : Mask2} {i j : Nat} (hi : i < iRows)
    (hj : j < iCols) : padded iRows iCols m i j = m i j := by
  unfold padded
  rw [if_pos ⟨Int.natCast_nonneg i, by exact_mod_cast hi, Int.natCast_nonneg j,
    by exact_mod_cast hj⟩]
  simp

lemma maxFilter3_of_center {iRows iCols : Nat} {m : Mask2} {i j : Nat} (hi : i < iRows)
    (hj : j < iCols) (hm : m i j = true) : maxFilter3 iRows iCols m i j = true := by
  unfold maxFilter3
  rw [List.any_eq_true]
  refine ⟨(0, 0), by simp [offsets3], ?_⟩
  simpa [padded_at_nat hi hj] using hm

lemma isEdge_iff {iRows iCols : Nat} {m : Mask2} {i j : Nat} (hi : i < iRows) (hj : j < iCols) :
    isEdge iRows iCols m i j = true ↔
      m i j = true ∧ minFilter3 iRows iCols m i j = false := by
  unfold isEdge
  rw [Bool.and_eq_true]
  rcases hm : m i j with _ | _
  · simp
  · have hmax := maxFilter3_of_center hi hj hm
    rcases hmin : minFilter3 iRows iCols m i j with _ | _ <;> simp [hmax, hmin]

lemma minFilter3_eq_false_iff {iRows iCols : Nat} {m : Mask2} {i j : Nat} :
    minFilter3 iRows iCols m i j = false ↔
      ¬ (∀ d ∈ offsets3, padded iRows iCols m (i + d.1) (j + d.2) = true) := by
  unfold minFilter3
  rw [← Bool.not_eq_true, List.all_eq_true]

/-- C9: for a channel pixel `(i, j)`, membership in the edge-pixel set is
equivalent to the pixel being foreground with a 3x3 neighborhood (zero-padded
past the array edge) that is not uniformly foreground, and equivalently to
the maximum and minimum filters differing at the pixel. -/
theorem C9_edge_pixel_characterization (iRows iCols : Nat) (m : Mask2) (i j : Nat)
    (hi : i < iRows) (hj : j < iCols) :
    ((i, j) ∈ edgePixels iRows iCols m ↔
      m i j = true ∧ ¬ (∀ d ∈ offsets3, padded iRows iCols m (i + d.1) (j + d.2) = true))
    ∧ ((i, j) ∈ edgePixels iRows iCols m ↔
      m i j = true ∧ maxFilter3 iRows iCols m i j ≠ minFilter3 iRows iCols m i j) := by
  have hmem : (i, j) ∈ edgePixels iRows iCols m ↔
      m i j = true ∧ minFilter3 iRows iCols m i j = false := by
    rw [mem_edgePixels, isEdge_iff hi hj]
    simp [hi, hj]
  constructor
  · rw [hmem, minFilter3_eq_false_iff]
  · rw [hmem]
    constructor
    · rintro ⟨hm, hf⟩
      exact ⟨hm, by rw [maxFilter3_of_center hi hj hm, hf]; simp⟩
    · rintro ⟨hm, hf⟩
      refine ⟨hm, ?_⟩
      rcases hmin : minFilter3 iRows iCols m i j with _ | _
      · rfl
      · exact absurd (by rw [maxFilter3_of_center hi hj hm, hmin]) hf

/-- Witness for C9 at a concrete input: a 2x2 channel whose only foreground
pixel `(0,0)` is an edge pixel. -/
theorem C9_witness :
    (((0, 0) ∈ edgePixels 2 2 (fun i j => i = 0 && j = 0) ↔
      (fun i j : Nat => i = 0 && j = 0) 0 0 = true ∧
        ¬ (∀ d ∈ offsets3,
          padded 2 2 (fun i j => i = 0 && j = 0) (0 + d.1) (0 + d.2) = true))
    ∧ ((0, 0) ∈ edgePixels 2 2 (fun i j => i = 0 && j = 0) ↔
      (fun i j : Nat => i = 0 && j = 0) 0 0 = true ∧
        maxFilter3 2 2 (fun i j => i = 0 && j = 0) 0 0 ≠
          minFilter3 2 2 (fun i j => i = 0 && j = 0) 0 0)) :=
  C9_edge_pixel_characterization 2 2 (fun i j => i = 0 && j = 0) 0 0 (by decide) (by decide)

/-! ### pattern_fit -/

lemma valid_location_iff {chanImg : Nat → Nat → ℚ} {iRows iCols pRows pCols r c : Nat} :
    valid_location chanImg iRows iCols pRows pCols r c = true ↔
      ∀ i j, i < iRows → j < iCols → r ≤ i → i < r + pRows → c ≤ j → j < c + pCols →
        chanImg i j = 0 := by
  unfold valid_location truthy
  rw [Bool.not_eq_eq_eq_not, Bool.not_true, List.any_eq_false]
  constructor
  · intro h i j hi hj h1 h2 h3 h4
    have hh := h i (List.mem_range.mpr hi)
    rw [Bool.not_eq_true, List.any_eq_false] at hh
    have hj2 := hh j (List.mem_range.mpr hj)
    simp only [Bool.and_eq_true, decide_eq_true_eq, not_and, ne_eq, not_not] at hj2
    exact hj2 ⟨h1, h2, h3, h4⟩
  · intro h i hi
    rw [Bool.not_eq_true, List.any_eq_false]
    intro j hj
    rw [List.mem_range] at hi hj
    simp only [Bool.and_eq_true, decide_eq_true_eq, not_and, ne_eq, not_not]
    rintro ⟨h1, h2, h3, h4⟩
    exact h i j hi hj h1 h2 h3 h4

lemma pattern_fit_iff {chanImg : Nat → Nat → ℚ} {iRows iCols pRows pCols r c : Nat} :
    pattern_fit chanImg iRows iCols pRows pCols r c = true ↔
      r + pRows ≤ iRows ∧ c + pCols ≤ iCols ∧
        ∀ i j, i < iRows → j < iCols → r ≤ i → i < r + pRows → c ≤ j → j < c + pCols →
          chanImg i j = 0 := by
  unfold pattern_fit
  split
  · rename_i hb
    simp only [Bool.or_eq_true, decide_eq_true_eq] at hb
    constructor
    · intro h; cases h
    · rintro ⟨h1, h2, -⟩; omega
  · rename_i hb
    simp only [Bool.or_eq_true, decide_eq_true_eq, not_or] at hb
    rw [valid_location_iff]
    constructor
    · intro h; exact ⟨by omega, by omega, h⟩
    · rintro ⟨-, -, h⟩; exact h

/-- C3 counterexample: with active background threshold `min_val = -1`, the
pixel `(0,0)` of an all-zero 1x1 channel is foreground (`imgMask` is true at
it), so the claim requires `pattern_fit` to return false at the in-bounds
anchor `(0,0)` for a 1x1 pattern; the code returns true (it tests pixel
truthiness, never the threshold). -/
theorem C3_counterexample :
    pattern_fit (fun _ _ => 0) 1 1 1 1 0 0 = true ∧
      imgMask (fun _ _ => 0) (-1) 0 0 = true := by
  decide

/-- C3 amended: `pattern_fit` fails closed on out-of-bounds footprints;
otherwise it returns false iff some pixel of the footprint is nonzero
(numpy truthiness, a fixed zero background threshold independent of the
configured `min_val`). -/
theorem C3_pattern_fit_amended (chanImg : Nat → Nat → ℚ) (iRows iCols pRows pCols r c : Nat) :
    pattern_fit chanImg iRows iCols pRows pCols r c = false ↔
      (iRows < r + pRows ∨ iCols < c + pCols) ∨
        ∃ i j, i < iRows ∧ j < iCols ∧ r ≤ i ∧ i < r + pRows ∧ c ≤ j ∧ j < c + pCols ∧
          truthy (chanImg i j) = true := by
  rw [← Bool.not_eq_true, pattern_fit_iff]
  unfold truthy
  push_neg
  constructor
  · intro h
    by_cases h1 : r + pRows ≤ iRows
    · by_cases h2 : c + pCols ≤ iCols
      · obtain ⟨i, j, hi, hj, ha, hb, hc, hd, hv⟩ := h h1 h2
        exact Or.inr ⟨i, j, hi, hj, ha, hb, hc, hd, by simpa using hv⟩
      · exact Or.inl (Or.inr (by omega))
    · exact Or.inl (Or.inl (by omega))
  · rintro (hb | ⟨i, j, hi, hj, ha, hbb, hc, hd, hv⟩)
    · intro h1 h2; omega
    · intro _ _
      exact ⟨i, j, hi, hj, ha, hbb, hc, hd, by simpa using hv⟩

/-! ### Error handling -/

lemma valid_locations_mismatch (pick : EdgeSet → Int × Int) (img pattern : Image3)
    (cfg : AlgoConfig) (protectWrap : Bool) (allowOverlap : OverlapArg)
    (h : pattern.chans ≠ img.chans) :
    valid_locations pick img pattern cfg protectWrap allowOverlap = .error chanMismatchMsg := by
  unfold valid_locations
  rw [if_pos h]

/-- C8: a channel-count mismatch between pattern and image aborts
`valid_locations` with the shape-mismatch error before any per-channel
computation; no mask is returned. -/
theorem C8_shape_mismatch (pick : EdgeSet → Int × Int) (img pattern : Image3)
    (cfg : AlgoConfig) (protectWrap : Bool) (allowOverlap : OverlapArg)
    (h : pattern.chans ≠ img.chans) :
    valid_locations pick img pattern cfg protectWrap allowOverlap = .error chanMismatchMsg :=
  valid_locations_mismatch pick img pattern cfg protectWrap allowOverlap h

/-- Witness for C8: a 2-channel pattern against a 3-channel image. -/
theorem C8_witness :
    valid_locations pickMin ⟨1, 1, 3, fun _ _ _ => 0⟩ ⟨1, 1, 2, fun _ _ _ => 0⟩
        ⟨"brute_force", .scalar 0, .scalar 0, 0⟩ true (.scalar false)
      = .error chanMismatchMsg :=
  C8_shape_mismatch pickMin ⟨1, 1, 3, fun _ _ _ => 0⟩ ⟨1, 1, 2, fun _ _ _ => 0⟩
    ⟨"brute_force", .scalar 0, .scalar 0, 0⟩ true (.scalar false) (by decide)

lemma findSome_const {α β : Type _} (l : List α) (f : α → Option β) (b : β)
    (hall : ∀ a ∈ l, f a = none ∨ f a = some b) (hex : ∃ a ∈ l, f a = some b) :
    l.findSome? f = some b := by
  induction l with
  | nil => obtain ⟨a, ha, -⟩ := hex; cases ha
  | cons x xs ih =>
    rw [List.findSome?_cons]
    rcases hall x (by simp) with hx | hx
    · rw [hx]
      obtain ⟨a, ha, hfa⟩ := hex
      rcases List.mem_cons.mp ha with rfl | ha2
      · rw [hx] at hfa; cases hfa
      · exact ih (fun a ha => hall a (by simp [ha])) ⟨a, ha2, hfa⟩
    · rw [hx]

/-- C7 counterexample: with `protect_wrap = false` and `allow_overlap = true`
the call does not raise; it returns a mask (here with a true cell), so the
claim that an error is raised regardless of the other configuration fields
is false. -/
theorem C7_counterexample :
    (valid_locations pickMin ⟨1, 1, 1, fun _ _ _ => 0⟩ ⟨1, 1, 1, fun _ _ _ => 0⟩
        ⟨"brute_force", .scalar 0, .scalar 0, 0⟩ false (.scalar true)).map (fun m => m 0 0 0)
      = .ok true := by
  rfl


/-! ### Plumbing lemmas for valid_locations -/

lemma chanExcept_brute_force (pick : EdgeSet → Int × Int) (img pattern : Image3)
    (mv tv : NumParam) (nb k : Nat) :
    chanExcept pick img pattern ⟨"brute_force", mv, tv, nb⟩ true (.scalar false) k =
      match resolveNum mv img.chans k minValSizeMsg with
      | .error e => .error e
      | .ok v => .ok (bruteMask (fun i j => img.val i j k) v img.rows img.cols
          pattern.rows pattern.cols) := by
  rfl

lemma chanExcept_threshold (pick : EdgeSet → Int × Int) (img pattern : Image3)
    (mv tv : NumParam) (nb k : Nat) :
    chanExcept pick img pattern ⟨"threshold", mv, tv, nb⟩ true (.scalar false) k =
      match resolveNum mv img.chans k minValSizeMsg with
      | .error e => .error e
      | .ok v =>
        match resolveNum tv img.chans k thresholdSizeMsg with
        | .error e => .error e
        | .ok t => .ok (thresholdMask (fun i j => img.val i j k) v t img.rows img.cols
            pattern.rows pattern.cols) := by
  rfl

lemma chanExcept_edge_tracing (pick : EdgeSet → Int × Int) (img pattern : Image3)
    (mv tv : NumParam) (nb k : Nat) :
    chanExcept pick img pattern ⟨"edge_tracing", mv, tv, nb⟩ true (.scalar false) k =
      match resolveNum mv img.chans k minValSizeMsg with
      | .error e => .error e
      | .ok v => .ok (edgeTracingMask pick (fun i j => img.val i j k) v img.rows img.cols
          pattern.rows pattern.cols) := by
  rfl

lemma valid_locations_of_none (pick : EdgeSet → Int × Int) (img pattern : Image3)
    (cfg : AlgoConfig) (protectWrap : Bool) (allowOverlap : OverlapArg)
    (h : pattern.chans = img.chans)
    (hfc : firstChanError pick img pattern cfg protectWrap allowOverlap = none) :
    valid_locations pick img pattern cfg protectWrap allowOverlap =
      .ok (fun r c k =>
        if r < img.rows ∧ c < img.cols ∧ k < img.chans then
          okMask pick img pattern cfg protectWrap allowOverlap k r c
        else false) := by
  have hfn : (fun r c k =>
      if r < img.rows ∧ c < img.cols ∧ k < img.chans then
        match chanExcept pick img pattern cfg protectWrap allowOverlap k with
        | Except.ok m => m r c
        | Except.error _ => false
      else false) = (fun r c k =>
      if r < img.rows ∧ c < img.cols ∧ k < img.chans then
        okMask pick img pattern cfg protectWrap allowOverlap k r c
      else false) := by
    funext r c k
    rcases hce : chanExcept pick img pattern cfg protectWrap allowOverlap k with e | m <;>
      simp [okMask, hce]
  unfold valid_locations
  rw [if_neg (by simp [h]), hfc, hfn]

lemma valid_locations_of_some (pick : EdgeSet → Int × Int) (img pattern : Image3)
    (cfg : AlgoConfig) (protectWrap : Bool) (allowOverlap : OverlapArg) (e : String)
    (h : pattern.chans = img.chans)
    (hfc : firstChanError pick img pattern cfg protectWrap allowOverlap = some e) :
    valid_locations pick img pattern cfg protectWrap allowOverlap = .error e := by
  unfold valid_locations
  rw [if_neg (by simp [h]), hfc]

lemma firstChanError_eq_none_iff (pick : EdgeSet → Int × Int) (img pattern : Image3)
    (cfg : AlgoConfig) (protectWrap : Bool) (allowOverlap : OverlapArg) :
    firstChanError pick img pattern cfg protectWrap allowOverlap = none ↔
      ∀ k, k < img.chans →
        ∃ m, chanExcept pick img pattern cfg protectWrap allowOverlap k = .ok m := by
  unfold firstChanError
  rw [List.findSome?_eq_none_iff]
  constructor
  · intro h k hk
    have := h k (List.mem_range.mpr hk)
    rcases hce : chanExcept pick img pattern cfg protectWrap allowOverlap k with e | m
    · rw [hce] at this; cases this
    · exact ⟨m, rfl⟩
  · intro h k hk
    obtain ⟨m, hm⟩ := h k (List.mem_range.mp hk)
    rw [hm]

lemma resolveOverlap_ok_of_le (a : OverlapArg) {k k2 : Nat} (hk : k2 ≤ k) {b : Bool}
    (h : resolveOverlap a k = .ok b) : ∃ b2, resolveOverlap a k2 = .ok b2 := by
  cases a with
  | scalar c => exact ⟨c, rfl⟩
  | seq l =>
    by_cases hlt : k < l.length
    · have h2 : k2 < l.length := lt_of_le_of_lt hk hlt
      exact ⟨l.get ⟨k2, h2⟩, by simp only [resolveOverlap]; rw [dif_pos h2]⟩
    · simp only [resolveOverlap] at h
      rw [dif_neg hlt] at h
      cases h

lemma resolveOverlap_error_eq (a : OverlapArg) (k : Nat) (e : String)
    (h : resolveOverlap a k = .error e) : e = indexMsg := by
  cases a with
  | scalar c => cases h
  | seq l =>
    simp only [resolveOverlap] at h
    by_cases hlt : k < l.length
    · rw [dif_pos hlt] at h; cases h
    · rw [dif_neg hlt] at h
      cases h
      rfl

lemma findSome_range {β : Type _} (f : Nat → Option β) (b : β) :
    ∀ (n k : Nat), k < n → f k = some b → (∀ j, j < k → f j = none) →
    (List.range n).findSome? f = some b := by
  intro n
  induction n with
  | zero => intro k hk; omega
  | succ m ih =>
    intro k hk hfk hbefore
    rw [List.range_succ, List.findSome?_append]
    by_cases hkm : k < m
    · rw [ih k hkm hfk hbefore]
      rfl
    · have hkem : k = m := by omega
      subst hkem
      have hnone : (List.range k).findSome? f = none := by
        rw [List.findSome?_eq_none_iff]
        intro j hj
        exact hbefore j (List.mem_range.mp hj)
      rw [hnone]
      simp [List.findSome?_cons, hfk]

lemma exists_of_findSome {α β : Type _} (l : List α) (f : α → Option β) (b : β)
    (h : l.findSome? f = some b) : ∃ a ∈ l, f a = some b := by
  induction l with
  | nil => cases h
  | cons x xs ih =>
    rw [List.findSome?_cons] at h
    rcases hx : f x with _ | y
    · rw [hx] at h
      obtain ⟨a, ha, hfa⟩ := ih h
      exact ⟨a, by simp [ha], hfa⟩
    · rw [hx] at h
      injection h with h2
      subst h2
      exact ⟨x, by simp, hx⟩

lemma chanExcept_no_wrap (pick : EdgeSet → Int × Int) (img pattern : Image3)
    (cfg : AlgoConfig) (allowOverlap : OverlapArg) (k : Nat) :
    chanExcept pick img pattern cfg false allowOverlap k =
      match resolveOverlap allowOverlap k with
      | .error e => .error e
      | .ok true => .ok (allowOverlapMask img.rows img.cols pattern.rows pattern.cols)
      | .ok false => .error wrapMsg := by
  rcases h : resolveOverlap allowOverlap k with e | b
  · simp [chanExcept, h]
  · cases b <;> simp [chanExcept, h]

/-- C7 amended: with `protect_wrap = false` and matching channel counts,
`valid_locations` raises the wrap-unsupported error iff some channel
resolves `allow_overlap` to `false` (a per-channel list shorter than the
channel count instead raises `IndexError` at its first out-of-range channel,
which follows every in-range one, so no extra well-formedness hypothesis is
needed); and when every channel allows overlap the call raises nothing and
returns the overlap mask normally. -/
theorem C7_protect_wrap_false (pick : EdgeSet → Int × Int) (img pattern : Image3)
    (cfg : AlgoConfig) (allowOverlap : OverlapArg)
    (h1 : pattern.chans = img.chans) :
    (valid_locations pick img pattern cfg false allowOverlap = .error wrapMsg ↔
      ∃ k, k < img.chans ∧ resolveOverlap allowOverlap k = .ok false) ∧
    ((∀ k, k < img.chans → resolveOverlap allowOverlap k = .ok true) →
      valid_locations pick img pattern cfg false allowOverlap =
        .ok (fun r c k =>
          if r < img.rows ∧ c < img.cols ∧ k < img.chans then
            allowOverlapMask img.rows img.cols pattern.rows pattern.cols r c
          else false)) := by
  refine ⟨⟨fun hE => ?_, fun hex => ?_⟩, fun hall => ?_⟩
  · unfold valid_locations at hE
    rw [if_neg (by simp [h1])] at hE
    rcases hfc : firstChanError pick img pattern cfg false allowOverlap with _ | e
    · rw [hfc] at hE; cases hE
    · rw [hfc] at hE
      have he : e = wrapMsg := by
        injection hE
      subst he
      unfold firstChanError at hfc
      obtain ⟨k, hk, hfk⟩ := exists_of_findSome _ _ _ hfc
      rcases hce : chanExcept pick img pattern cfg false allowOverlap k with e2 | m
      · rw [hce] at hfk
        simp only [Option.some.injEq] at hfk
        subst hfk
        rw [chanExcept_no_wrap] at hce
        rcases hov : resolveOverlap allowOverlap k with e3 | b
        · rw [hov] at hce
          have h3 : e3 = wrapMsg := by
            injection hce
          rw [resolveOverlap_error_eq allowOverlap k e3 hov] at h3
          exact absurd h3 (by decide)
        · cases b
          · exact ⟨k, List.mem_range.mp hk, hov⟩
          · rw [hov] at hce
            cases hce
      · rw [hce] at hfk
        cases hfk
  · obtain ⟨k, hk, hfalse⟩ := hex
    classical
    have hex2 : ∃ j, j < img.chans ∧ resolveOverlap allowOverlap j = .ok false :=
      ⟨k, hk, hfalse⟩
    have hk0 := Nat.find_spec hex2
    have hfc : firstChanError pick img pattern cfg false allowOverlap = some wrapMsg := by
      unfold firstChanError
      refine findSome_range _ wrapMsg img.chans (Nat.find hex2) hk0.1 ?_ ?_
      · simp only [chanExcept_no_wrap, hk0.2]
      · intro j hj
        have hne := Nat.find_min hex2 hj
        obtain ⟨b2, hb2⟩ := resolveOverlap_ok_of_le allowOverlap (le_of_lt hj) hk0.2
        have hb2t : b2 = true := by
          cases b2
          · exact absurd ⟨lt_trans hj hk0.1, hb2⟩ hne
          · rfl
        subst hb2t
        simp only [chanExcept_no_wrap, hb2]
    exact valid_locations_of_some pick img pattern cfg false allowOverlap wrapMsg h1 hfc
  · have hfc : firstChanError pick img pattern cfg false allowOverlap = none := by
      rw [firstChanError_eq_none_iff]
      intro k hk
      exact ⟨_, by rw [chanExcept_no_wrap, hall k hk]⟩
    rw [valid_locations_of_none pick img pattern cfg false allowOverlap h1 hfc]
    refine congrArg Except.ok ?_
    funext r c k
    by_cases hg : r < img.rows ∧ c < img.cols ∧ k < img.chans
    · rw [if_pos hg, if_pos hg]
      unfold okMask
      rw [chanExcept_no_wrap, hall k hg.2.2]
    · rw [if_neg hg, if_neg hg]

/-- Witness for C7's amended statement on a two-channel image: the list
`[true, false]` raises the wrap error (channel 1 forbids overlap), while the
broadcast scalar `true` returns the overlap mask without raising. -/
theorem C7_witness :
    (valid_locations pickMin ⟨2, 2, 2, fun _ _ _ => 0⟩ ⟨1, 1, 2, fun _ _ _ => 0⟩
        ⟨"brute_force", .scalar 0, .scalar 0, 0⟩ false (.seq [true, false])
      = .error wrapMsg) ∧
    valid_locations pickMin ⟨2, 2, 2, fun _ _ _ => 0⟩ ⟨1, 1, 2, fun _ _ _ => 0⟩
        ⟨"brute_force", .scalar 0, .scalar 0, 0⟩ false (.scalar true)
      = .ok (fun r c k => if r < 2 ∧ c < 2 ∧ k < 2 then allowOverlapMask 2 2 1 1 r c
          else false) :=
  ⟨((C7_protect_wrap_false pickMin ⟨2, 2, 2, fun _ _ _ => 0⟩ ⟨1, 1, 2, fun _ _ _ => 0⟩
      ⟨"brute_force", .scalar 0, .scalar 0, 0⟩ (.seq [true, false]) (by decide)).1).mpr
    ⟨1, by decide, rfl⟩,
   (C7_protect_wrap_false pickMin ⟨2, 2, 2, fun _ _ _ => 0⟩ ⟨1, 1, 2, fun _ _ _ => 0⟩
      ⟨"brute_force", .scalar 0, .scalar 0, 0⟩ (.scalar true) (by decide)).2
    (fun _ _ => rfl)⟩

lemma resolveNum_ok_any (p : NumParam) (n k k2 : Nat) (e : String) {v : ℚ}
    (h : resolveNum p n k e = .ok v) : ∃ v2, resolveNum p n k2 e = .ok v2 := by
  cases p with
  | scalar w => exact ⟨w, rfl⟩
  | seq l =>
    simp only [resolveNum] at h ⊢
    by_cases hl : l.length = n
    · rw [if_pos hl]
      exact ⟨l.getD k2 0, rfl⟩
    · rw [if_neg hl] at h
      cases h

lemma resolveNum_tv_ok (tv : NumParam) (n k : Nat)
    (htv : match tv with | .scalar _ => True | .seq l => l.length = n) :
    ∃ t, resolveNum tv n k thresholdSizeMsg = .ok t := by
  cases tv with
  | scalar w => exact ⟨w, rfl⟩
  | seq l =>
    simp only [resolveNum]
    rw [if_pos htv]
    exact ⟨l.getD k 0, rfl⟩

/-! ### C5: threshold mask is a superset of the brute_force mask -/

lemma foldl_step_preserve (step : Mask2 → Nat × Nat → Mask2)
    (hstep : ∀ m p r c, m r c = true → step m p r c = true) (l : List (Nat × Nat)) (m : Mask2)
    (r c : Nat) (h : m r c = true) : (l.foldl step m) r c = true := by
  induction l generalizing m with
  | nil => exact h
  | cons p ps ih => exact ih _ (hstep m p r c h)

lemma thresholdMask_superset {chanImg : Nat → Nat → ℚ} {minVal thVal : ℚ}
    {iRows iCols pRows pCols r c : Nat}
    (h : bruteMask chanImg minVal iRows iCols pRows pCols r c = true) :
    thresholdMask chanImg minVal thVal iRows iCols pRows pCols r c = true := by
  unfold thresholdMask
  refine foldl_step_preserve _ ?_ _ _ _ _ h
  intro m p r2 c2 hm
  dsimp only
  split
  · by_cases he : r2 = p.1 ∧ c2 = p.2
    · simp [he]
    · simpa [he] using hm
  · exact hm

/-- C5: with identical image, pattern, `min_val` and `threshold_val`
(matching channel counts, `protect_wrap` true, `allow_overlap` false), every
cell that is true in the `brute_force` mask is true in the `threshold` mask. -/
theorem C5_threshold_superset_of_brute (pick : EdgeSet → Int × Int) (img pattern : Image3)
    (mv tv : NumParam) (nb r c k : Nat)
    (htv : match tv with | .scalar _ => True | .seq l => l.length = img.chans)
    (hb : (valid_locations pick img pattern ⟨"brute_force", mv, tv, nb⟩ true
        (.scalar false)).map (fun m => m r c k) = .ok true) :
    (valid_locations pick img pattern ⟨"threshold", mv, tv, nb⟩ true
        (.scalar false)).map (fun m => m r c k) = .ok true := by
  by_cases hch : pattern.chans = img.chans
  · rcases hfb : firstChanError pick img pattern ⟨"brute_force", mv, tv, nb⟩ true
        (.scalar false) with _ | e
    · -- every channel resolves min_val, hence threshold raises nothing either
      have hok := (firstChanError_eq_none_iff _ _ _ _ _ _).mp hfb
      have hft : firstChanError pick img pattern ⟨"threshold", mv, tv, nb⟩ true
          (.scalar false) = none := by
        rw [firstChanError_eq_none_iff]
        intro k2 hk2
        obtain ⟨m2, hm2⟩ := hok k2 hk2
        rw [chanExcept_brute_force] at hm2
        obtain ⟨t, htvk⟩ := resolveNum_tv_ok tv img.chans k2 htv
        rcases hmv : resolveNum mv img.chans k2 minValSizeMsg with e2 | v2
        · rw [hmv] at hm2; cases hm2
        · rw [chanExcept_threshold, hmv, htvk]
          exact ⟨_, rfl⟩
      rw [valid_locations_of_none _ _ _ _ _ _ hch hfb] at hb
      rw [valid_locations_of_none _ _ _ _ _ _ hch hft]
      simp only [Except.map, Except.ok.injEq] at hb ⊢
      split at hb
      · rename_i hbounds
        rw [if_pos hbounds]
        obtain ⟨t, htvk⟩ := resolveNum_tv_ok tv img.chans k htv
        rcases hmv : resolveNum mv img.chans k minValSizeMsg with e2 | v
        · obtain ⟨mk, hmk⟩ := hok k hbounds.2.2
          rw [chanExcept_brute_force, hmv] at hmk
          cases hmk
        · have hbm : okMask pick img pattern ⟨"brute_force", mv, tv, nb⟩ true
              (.scalar false) k = bruteMask (fun i j => img.val i j k) v img.rows img.cols
                pattern.rows pattern.cols := by
            unfold okMask
            rw [chanExcept_brute_force, hmv]
          have htm : okMask pick img pattern ⟨"threshold", mv, tv, nb⟩ true
              (.scalar false) k = thresholdMask (fun i j => img.val i j k) v t img.rows
                img.cols pattern.rows pattern.cols := by
            unfold okMask
            rw [chanExcept_threshold, hmv, htvk]
          rw [hbm] at hb
          rw [htm]
          exact thresholdMask_superset hb
      · cases hb
    · rw [valid_locations_of_some _ _ _ _ _ _ e hch hfb] at hb
      cases hb
  · rw [valid_locations_mismatch pick img pattern _ _ _ hch] at hb
    cases hb

/-- Witness for C5 at a concrete input: trivial all-zero 1x1 image and
pattern, where the brute_force mask is true at the origin. -/
theorem C5_witness :
    (valid_locations pickMin ⟨1, 1, 1, fun _ _ _ => 0⟩ ⟨1, 1, 1, fun _ _ _ => 0⟩
        ⟨"threshold", .scalar 0, .scalar 0, 0⟩ true (.scalar false)).map (fun m => m 0 0 0)
      = .ok true :=
  C5_threshold_superset_of_brute pickMin ⟨1, 1, 1, fun _ _ _ => 0⟩ ⟨1, 1, 1, fun _ _ _ => 0⟩
    (.scalar 0) (.scalar 0) 0 0 0 0 trivial (by rfl)

/-! ### C2 and C4: concrete divergences -/

lemma mem_trueCells {iRows iCols : Nat} {m : Mask2} {p : Nat × Nat}
    (h : p ∈ trueCells iRows iCols m) : m p.1 p.2 = true := by
  simp only [trueCells, List.mem_flatMap, List.mem_filterMap, List.mem_range] at h
  obtain ⟨a, _, b, _, hab⟩ := h
  by_cases hm : m a b
  · simp only [hm, if_true, Option.some.injEq] at hab
    rw [← hab]
    exact hm
  · simp [hm] at hab

lemma foldl_threshold_eval (chanImg : Nat → Nat → ℚ) (thVal : ℚ) (iRows iCols pRows pCols : Nat) :
    ∀ (l : List (Nat × Nat)) (m : Mask2), (∀ p ∈ l, m p.1 p.2 = true) → ∀ r c,
      (l.foldl
        (fun m p =>
          if footMean chanImg iRows iCols pRows pCols p.1 p.2 ≤ thVal then
            fun r2 c2 => if r2 = p.1 ∧ c2 = p.2 then true else m r2 c2
          else m) m) r c = m r c := by
  intro l
  induction l with
  | nil => intro m _ r c; rfl
  | cons p ps ih =>
    intro m hl r c
    rw [List.foldl_cons]
    have hstep : ∀ r2 c2,
        (if footMean chanImg iRows iCols pRows pCols p.1 p.2 ≤ thVal then
          fun r2 c2 => if r2 = p.1 ∧ c2 = p.2 then true else m r2 c2
        else m) r2 c2 = m r2 c2 := by
      intro r2 c2
      split
      · by_cases he : r2 = p.1 ∧ c2 = p.2
        · simp only [he, and_self, if_true]
          exact (hl p (by simp)).symm
        · simp [he]
      · rfl
    rw [ih _ fun q hq => by rw [hstep]; exact hl q (by simp [hq])]
    exact hstep r c

/-- The threshold strategy's second pass enumerates `np.nonzero(mask)` — the
cells that are already true — and sets them to true, so it changes nothing:
the threshold mask coincides with the brute_force mask on every input. -/
lemma thresholdMask_eq_bruteMask (chanImg : Nat → Nat → ℚ) (minVal thVal : ℚ)
    (iRows iCols pRows pCols r c : Nat) :
    thresholdMask chanImg minVal thVal iRows iCols pRows pCols r c =
      bruteMask chanImg minVal iRows iCols pRows pCols r c := by
  unfold thresholdMask
  exact foldl_threshold_eval chanImg thVal iRows iCols pRows pCols _ _
    (fun p hp => mem_trueCells hp) r c

/-- C2: in the spec's concrete scenario (10x10 image with a 3x3 block of
value 1 at rows 2..4 x cols 2..4, `min_val = 0`, all-zero 2x2 pattern,
`threshold_val = 1`), brute_force invalidates anchor `(1,1)` and its
footprint mean is 1/4 ≤ 1, so the claim requires the threshold strategy to
re-validate it; the code leaves it invalid, because the second pass
enumerates `np.nonzero(mask)` — the valid cells — instead of the
invalidated ones, re-asserting already-valid cells only. -/
theorem C2_threshold_does_not_revalidate :
    (valid_locations pickMin scenarioImg scenarioPattern ⟨"threshold", .scalar 0, .scalar 1, 0⟩
        true (.scalar false)).map (fun m => m 1 1 0) = .ok false ∧
    (valid_locations pickMin scenarioImg scenarioPattern ⟨"brute_force", .scalar 0, .scalar 1, 0⟩
        true (.scalar false)).map (fun m => m 1 1 0) = .ok false ∧
    footMean (fun i j => scenarioImg.val i j 0) 10 10 2 2 1 1 ≤ 1 := by
  refine ⟨?_, by rfl, ?_⟩
  · have hnone : firstChanError pickMin scenarioImg scenarioPattern
        ⟨"threshold", .scalar 0, .scalar 1, 0⟩ true (.scalar false) = none := by rfl
    rw [valid_locations_of_none pickMin scenarioImg scenarioPattern _ true (.scalar false)
      (by rfl) hnone]
    simp only [Except.map, Except.ok.injEq]
    rw [if_pos (show 1 < scenarioImg.rows ∧ 1 < scenarioImg.cols ∧ 0 < scenarioImg.chans by
      decide)]
    rw [show okMask pickMin scenarioImg scenarioPattern ⟨"threshold", .scalar 0, .scalar 1, 0⟩
        true (.scalar false) 0 =
      thresholdMask (fun i j => scenarioImg.val i j 0) 0 1 scenarioImg.rows scenarioImg.cols
        scenarioPattern.rows scenarioPattern.cols from rfl]
    rw [thresholdMask_eq_bruteMask]
    rfl
  · have h14 : footMean (fun i j => scenarioImg.val i j 0) 10 10 2 2 1 1 =
        ([0, 0, 0, 1] : List ℚ).sum / (([0, 0, 0, 1] : List ℚ).length : ℚ) := by rfl
    rw [h14]
    norm_num

/-- C4: the bounds invariant fails when the pattern is more than one row
taller than the image: for a 2x2 all-zero image and a 4x2 all-zero pattern,
the boundary-strip removal `mask[i_rows - p_rows + 1 : i_rows, :] = False`
computes the negative start `-1`, which Python wraps around to row 1, so row
0 is never cleared: the brute_force mask is true at anchor `(0,0)` although
`0 + 4 > 2` (the code's own docstring promises the mask marks placements
that fit). -/
theorem C4_bounds_invariant_violated :
    (valid_locations pickMin ⟨2, 2, 1, fun _ _ _ => 0⟩ ⟨4, 2, 1, fun _ _ _ => 0⟩
        ⟨"brute_force", .scalar 0, .scalar 0, 0⟩ true (.scalar false)).map (fun m => m 0 0 0)
      = .ok true ∧
    (2 : Nat) < 0 + 4 :=
  ⟨rfl, by decide⟩

/-! ### Characterization of the brute_force mask -/

lemma setFalseRect_false_iff {m : Mask2} {r1 r2 c1 c2 : Int} {r c : Nat} :
    setFalseRect m r1 r2 c1 c2 r c = false ↔
      (r1 ≤ (r : Int) ∧ (r : Int) ≤ r2 ∧ c1 ≤ (c : Int) ∧ (c : Int) ≤ c2) ∨ m r c = false := by
  unfold setFalseRect
  split
  · rename_i h
    exact ⟨fun _ => Or.inl h, fun _ => rfl⟩
  · rename_i h
    exact ⟨fun hm => Or.inr hm, fun hm => hm.resolve_left h⟩

lemma invalidatePixel_false_iff {pRows pCols : Nat} {m : Mask2} {p : Nat × Nat} {r c : Nat} :
    invalidatePixel pRows pCols m p r c = false ↔
      covers pRows pCols ((p.1 : Int), (p.2 : Int)) r c ∨ m r c = false := by
  unfold invalidatePixel
  rw [setFalseRect_false_iff]
  unfold covers
  constructor
  · rintro (h | h)
    · exact Or.inl (by dsimp only at h ⊢; omega)
    · exact Or.inr h
  · rintro (h | h)
    · exact Or.inl (by dsimp only at h ⊢; omega)
    · exact Or.inr h

lemma foldl_invalidate_false_iff {pRows pCols : Nat} {r c : Nat} :
    ∀ (l : List (Nat × Nat)) (m : Mask2),
      (l.foldl (invalidatePixel pRows pCols) m) r c = false ↔
        m r c = false ∨ ∃ p ∈ l, covers pRows pCols ((p.1 : Int), (p.2 : Int)) r c := by
  intro l
  induction l with
  | nil => intro m; simp
  | cons p ps ih =>
    intro m
    rw [List.foldl_cons, ih, invalidatePixel_false_iff]
    constructor
    · rintro ((h | h) | ⟨q, hq, h⟩)
      · exact Or.inr ⟨p, by simp, h⟩
      · exact Or.inl h
      · exact Or.inr ⟨q, by simp [hq], h⟩
    · rintro (h | ⟨q, hq, h⟩)
      · exact Or.inl (Or.inr h)
      · rcases List.mem_cons.mp hq with rfl | hq2
        · exact Or.inl (Or.inl h)
        · exact Or.inr ⟨q, hq2, h⟩

lemma bruteMask_true_iff {chanImg : Nat → Nat → ℚ} {minVal : ℚ}
    {iRows iCols pRows pCols r c : Nat} :
    bruteMask chanImg minVal iRows iCols pRows pCols r c = true ↔
      initMask chanImg minVal iRows iCols pRows pCols r c = true ∧
        ∀ p ∈ edgePixels iRows iCols (imgMask chanImg minVal),
          ¬ covers pRows pCols ((p.1 : Int), (p.2 : Int)) r c := by
  unfold bruteMask
  rw [← Bool.not_eq_false, foldl_invalidate_false_iff]
  push_neg
  simp only [ne_eq, Bool.not_eq_false]

lemma initMask_true_iff {chanImg : Nat → Nat → ℚ} {minVal : ℚ}
    {iRows iCols pRows pCols r c : Nat} (hp1 : 1 ≤ pRows) (hp2 : pRows ≤ iRows + 1)
    (hp3 : 1 ≤ pCols) (hp4 : pCols ≤ iCols + 1) (hr : r < iRows) (hc : c < iCols) :
    initMask chanImg minVal iRows iCols pRows pCols r c = true ↔
      bgMask chanImg minVal r c = true ∧ r + pRows ≤ iRows ∧ c + pCols ≤ iCols := by
  unfold initMask pyIdx
  rw [if_neg (by omega), if_neg (by omega)]
  simp only [Bool.and_eq_true, Bool.not_eq_true', decide_eq_false_iff_not]
  constructor
  · rintro ⟨⟨hbg, hrow⟩, hcol⟩
    exact ⟨hbg, by omega, by omega⟩
  · rintro ⟨hbg, h5, h6⟩
    exact ⟨⟨hbg, by omega⟩, by omega⟩

/-! ### C6: pattern_fit against the brute_force mask -/

lemma isEdge_of_bg_neighbor {iRows iCols : Nat} {fg : Mask2} (di dj : Int) {a b x y : Nat}
    (ha : a < iRows) (hb : b < iCols) (hfg : fg a b = true) (hbg : fg x y = false)
    (hx : x < iRows) (hy : y < iCols) (hd : (di, dj) ∈ offsets3)
    (hdx : (x : Int) = a + di) (hdy : (y : Int) = b + dj) :
    isEdge iRows iCols fg a b = true := by
  rw [isEdge_iff ha hb]
  refine ⟨hfg, ?_⟩
  rw [minFilter3_eq_false_iff]
  intro hall
  have hp := hall _ hd
  dsimp only at hp
  rw [← hdx, ← hdy, padded_at_nat hx hy, hbg] at hp
  cases hp

lemma exists_edge_on_path {iRows iCols : Nat} (fg : Mask2) :
    ∀ (n a b r c : Nat), (a - r) + (b - c) ≤ n → r ≤ a → c ≤ b → a < iRows → b < iCols →
      fg a b = true → fg r c = false →
      ∃ x y, r ≤ x ∧ x ≤ a ∧ c ≤ y ∧ y ≤ b ∧ isEdge iRows iCols fg x y = true := by
  intro n
  induction n with
  | zero =>
    intro a b r c hn hra hcb _ _ hfg hbg
    have : a = r ∧ b = c := by omega
    rw [this.1, this.2] at hfg
    rw [hfg] at hbg
    cases hbg
  | succ n ih =>
    intro a b r c hn hra hcb ha hb hfg hbg
    by_cases har : r < a
    · rcases hprev : fg (a - 1) b with _ | _
      · exact ⟨a, b, by omega, le_refl a, hcb, le_refl b,
          isEdge_of_bg_neighbor (-1) 0 ha hb hfg hprev (by omega) hb (by decide)
            (by omega) (by omega)⟩
      · obtain ⟨x, y, h1, h2, h3, h4, h5⟩ :=
          ih (a - 1) b r c (by omega) (by omega) hcb (by omega) hb hprev hbg
        exact ⟨x, y, h1, by omega, h3, h4, h5⟩
    · by_cases hcbs : c < b
      · rcases hprev : fg a (b - 1) with _ | _
        · exact ⟨a, b, hra, le_refl a, by omega, le_refl b,
            isEdge_of_bg_neighbor 0 (-1) ha hb hfg hprev ha (by omega) (by decide)
              (by omega) (by omega)⟩
        · obtain ⟨x, y, h1, h2, h3, h4, h5⟩ :=
            ih a (b - 1) r c (by omega) hra (by omega) ha (by omega) hprev hbg
          exact ⟨x, y, h1, h2, h3, by omega, h5⟩
      · have : a = r ∧ b = c := by omega
        rw [this.1, this.2] at hfg
        rw [hfg] at hbg
        cases hbg

lemma pattern_fit_eq_bruteMask {chanImg : Nat → Nat → ℚ} {minVal : ℚ}
    {iRows iCols pRows pCols r c : Nat}
    (hpix : ∀ i, i < iRows → ∀ j, j < iCols → (chanImg i j ≠ 0 ↔ minVal < chanImg i j))
    (hp1 : 1 ≤ pRows) (hp2 : pRows ≤ iRows + 1) (hp3 : 1 ≤ pCols) (hp4 : pCols ≤ iCols + 1)
    (hr : r < iRows) (hc : c < iCols) :
    pattern_fit chanImg iRows iCols pRows pCols r c =
      bruteMask chanImg minVal iRows iCols pRows pCols r c := by
  have hbg : ∀ i j, i < iRows → j < iCols →
      (imgMask chanImg minVal i j = true ↔ chanImg i j ≠ 0) := by
    intro i j hi hj
    unfold imgMask bgMask
    rw [hpix i hi j hj]
    simp [not_le]
  have hiff : pattern_fit chanImg iRows iCols pRows pCols r c = true ↔
      bruteMask chanImg minVal iRows iCols pRows pCols r c = true := by
    rw [pattern_fit_iff, bruteMask_true_iff,
      initMask_true_iff hp1 hp2 hp3 hp4 hr hc]
    constructor
    · rintro ⟨h1, h2, h3⟩
      refine ⟨⟨?_, h1, h2⟩, ?_⟩
      · -- the anchor pixel is inside its own footprint, hence zero, hence background
        have h0 : chanImg r c = 0 := h3 r c hr hc (le_refl r) (by omega) (le_refl c) (by omega)
        have hle : chanImg r c ≤ minVal := by
          by_contra hlt
          exact absurd ((hpix r hr c hc).mpr (not_le.mp hlt)) (by simp [h0])
        unfold bgMask
        exact decide_eq_true hle
      · rintro ⟨i, j⟩ hp hcov
        obtain ⟨hi, hj, he⟩ := mem_edgePixels.mp hp
        obtain ⟨hfg, -⟩ := (isEdge_iff hi hj).mp he
        unfold covers at hcov
        dsimp only at hcov
        have hz : chanImg i j = 0 := h3 i j hi hj (by omega) (by omega) (by omega) (by omega)
        rw [hbg i j hi hj] at hfg
        exact hfg (by rw [hz])
    · rintro ⟨⟨hanch, h1, h2⟩, hcov⟩
      refine ⟨h1, h2, ?_⟩
      intro i j hi hj hri hir hcj hjc
      by_contra hnz
      have hfgij : (imgMask chanImg minVal) i j = true := (hbg i j hi hj).mpr hnz
      have hbga : (imgMask chanImg minVal) r c = false := by
        unfold imgMask
        rw [hanch]
        rfl
      obtain ⟨x, y, hx1, hx2, hy1, hy2, hxe⟩ :=
        exists_edge_on_path (imgMask chanImg minVal) ((i - r) + (j - c)) i j r c
          (le_refl _) hri hcj hi hj hfgij hbga
      exact hcov (x, y) (mem_edgePixels.mpr ⟨by omega, by omega, hxe⟩)
        ⟨by omega, by omega, by omega, by omega⟩
  rcases hpf : pattern_fit chanImg iRows iCols pRows pCols r c with _ | _
  · rcases hbm : bruteMask chanImg minVal iRows iCols pRows pCols r c with _ | _
    · rfl
    · rw [hpf, hbm] at hiff
      exact absurd (hiff.mpr rfl) (by simp)
  · rw [hpf] at hiff
    exact (hiff.mp rfl).symm

/-- C6 counterexample: a 1x1 image of value 1 with `min_val = 1` and a 1x1
pattern. The pixel is background under the threshold (1 ≤ 1), so the
brute_force mask is true at `(0,0,0)`, but `pattern_fit` tests raw
truthiness and returns false: the two disagree for this `min_val`. -/
theorem C6_counterexample :
    (valid_locations pickMin ⟨1, 1, 1, fun _ _ _ => 1⟩ ⟨1, 1, 1, fun _ _ _ => 0⟩
        ⟨"brute_force", .scalar 1, .scalar 0, 0⟩ true (.scalar false)).map (fun m => m 0 0 0)
      = .ok true ∧
    pattern_fit (fun _ _ => 1) 1 1 1 1 0 0 = false :=
  ⟨rfl, rfl⟩

/-- C6 amended: `pattern_fit` agrees with the brute_force mask cell
`mask[r,c,k]` whenever nonzero pixel values and foreground under the
resolved `min_val` coincide on channel `k` (in particular for `min_val = 0`
with nonnegative intensities), the pattern is nonempty, and the pattern is
at most one row/column larger than the image (otherwise the negative-slice
wraparound of the strip removal breaks the bounds invariant, see C4). -/
theorem C6_pattern_fit_matches_brute (pick : EdgeSet → Int × Int) (img pattern : Image3)
    (mv tv : NumParam) (nb r c k : Nat) (v : ℚ)
    (hch : pattern.chans = img.chans) (hk : k < img.chans)
    (hmv : resolveNum mv img.chans k minValSizeMsg = .ok v)
    (hpix : ∀ i, i < img.rows → ∀ j, j < img.cols → (img.val i j k ≠ 0 ↔ v < img.val i j k))
    (hp1 : 1 ≤ pattern.rows) (hp2 : pattern.rows ≤ img.rows + 1)
    (hp3 : 1 ≤ pattern.cols) (hp4 : pattern.cols ≤ img.cols + 1) :
    (valid_locations pick img pattern ⟨"brute_force", mv, tv, nb⟩ true (.scalar false)).map
      (fun m => m r c k) =
      .ok (pattern_fit (fun i j => img.val i j k) img.rows img.cols
        pattern.rows pattern.cols r c) := by
  have hnone : firstChanError pick img pattern ⟨"brute_force", mv, tv, nb⟩ true
      (.scalar false) = none := by
    rw [firstChanError_eq_none_iff]
    intro k2 _
    obtain ⟨v2, hv2⟩ := resolveNum_ok_any mv img.chans k k2 minValSizeMsg hmv
    rw [chanExcept_brute_force, hv2]
    exact ⟨_, rfl⟩
  rw [valid_locations_of_none pick img pattern _ true (.scalar false) hch hnone]
  simp only [Except.map, Except.ok.injEq]
  by_cases hrc : r < img.rows ∧ c < img.cols
  · rw [if_pos ⟨hrc.1, hrc.2, hk⟩]
    have hok : okMask pick img pattern ⟨"brute_force", mv, tv, nb⟩ true (.scalar false) k =
        bruteMask (fun i j => img.val i j k) v img.rows img.cols
          pattern.rows pattern.cols := by
      unfold okMask
      rw [chanExcept_brute_force, hmv]
    rw [hok]
    exact (pattern_fit_eq_bruteMask hpix hp1 hp2 hp3 hp4 hrc.1 hrc.2).symm
  · rw [if_neg (by tauto)]
    rw [eq_comm, ← Bool.not_eq_true, pattern_fit_iff]
    rintro ⟨hb1, hb2, -⟩
    omega

/-- Witness for C6's amended statement: the concrete 10x10 scenario with
`min_val = 0` at anchor `(1,1)` of channel 0. -/
theorem C6_witness :
    (valid_locations pickMin scenarioImg scenarioPattern
        ⟨"brute_force", .scalar 0, .scalar 0, 0⟩ true (.scalar false)).map (fun m => m 1 1 0) =
      .ok (pattern_fit (fun i j => scenarioImg.val i j 0) scenarioImg.rows scenarioImg.cols
        scenarioPattern.rows scenarioPattern.cols 1 1) :=
  C6_pattern_fit_matches_brute pickMin scenarioImg scenarioPattern (.scalar 0) (.scalar 0)
    0 1 1 0 0 (by decide) (by decide) (by rfl)
    (by decide) (by decide) (by decide) (by decide) (by decide)

/-! ### C10: frame over the input arrays -/

lemma chanFold_ok (pick : EdgeSet → Int × Int) (img pattern : Image3) (cfg : AlgoConfig)
    (protectWrap : Bool) (allowOverlap : OverlapArg) :
    ∀ (l : List Nat) (out : Mask3),
      (∀ k ∈ l, ∃ m, chanExcept pick img pattern cfg protectWrap allowOverlap k = .ok m) →
      chanFold pick img pattern cfg protectWrap allowOverlap l out =
        .ok (fun r c k2 =>
          if k2 ∈ l ∧ r < img.rows ∧ c < img.cols then
            okMask pick img pattern cfg protectWrap allowOverlap k2 r c
          else out r c k2) := by
  intro l
  induction l with
  | nil =>
    intro out _
    unfold chanFold
    exact congrArg Except.ok (by funext r c k2; simp)
  | cons k ks ih =>
    intro out hall
    obtain ⟨m, hce⟩ := hall k (by simp)
    unfold chanFold
    rw [hce]
    show chanFold pick img pattern cfg protectWrap allowOverlap ks
      (writeChan out img.rows img.cols k m) = _
    rw [ih (writeChan out img.rows img.cols k m) (fun q hq => hall q (by simp [hq]))]
    refine congrArg Except.ok ?_
    funext r c k2
    by_cases hk2 : k2 ∈ ks ∧ r < img.rows ∧ c < img.cols
    · rw [if_pos hk2, if_pos ⟨by simp [hk2.1], hk2.2⟩]
    · rw [if_neg hk2]
      unfold writeChan
      by_cases hkk : k2 = k ∧ r < img.rows ∧ c < img.cols
      · rw [if_pos hkk, if_pos ⟨by simp [hkk.1], hkk.2⟩]
        unfold okMask
        rw [hkk.1, hce]
      · rw [if_neg hkk, if_neg ?_]
        rintro ⟨hmem, hb⟩
        rcases List.mem_cons.mp hmem with rfl | hmem2
        · exact hkk ⟨rfl, hb⟩
        · exact hk2 ⟨hmem2, hb⟩

lemma chanFold_err (pick : EdgeSet → Int × Int) (img pattern : Image3) (cfg : AlgoConfig)
    (protectWrap : Bool) (allowOverlap : OverlapArg) :
    ∀ (l : List Nat) (out : Mask3) (e : String),
      l.findSome? (fun k =>
        match chanExcept pick img pattern cfg protectWrap allowOverlap k with
        | .error e2 => some e2
        | .ok _ => none) = some e →
      chanFold pick img pattern cfg protectWrap allowOverlap l out = .error e := by
  intro l
  induction l with
  | nil =>
    intro out e h
    simp at h
  | cons k ks ih =>
    intro out e h
    rw [List.findSome?_cons] at h
    rcases hce : chanExcept pick img pattern cfg protectWrap allowOverlap k with e2 | m
    · rw [hce] at h
      simp only [Option.some_orElse] at h
      obtain rfl := Option.some.inj h
      unfold chanFold
      rw [hce]
    · rw [hce] at h
      simp only [Option.none_orElse] at h
      unfold chanFold
      rw [hce]
      exact ih (writeChan out img.rows img.cols k m) e h

/-- The explicit-state formulation computes exactly the mask that
`valid_locations` returns (and raises exactly the same errors). -/
lemma valid_locations_state_out (pick : EdgeSet → Int × Int) (st : VLState) (cfg : AlgoConfig)
    (protectWrap : Bool) (allowOverlap : OverlapArg) :
    (valid_locations_state pick st cfg protectWrap allowOverlap).map VLState.out =
      valid_locations pick st.img st.pattern cfg protectWrap allowOverlap := by
  unfold valid_locations_state valid_locations
  by_cases hch : st.pattern.chans ≠ st.img.chans
  · rw [if_pos hch, if_pos hch]
    rfl
  · rw [if_neg hch, if_neg hch]
    rcases hfc : firstChanError pick st.img st.pattern cfg protectWrap allowOverlap with _ | e
    · have hok := (firstChanError_eq_none_iff pick st.img st.pattern cfg protectWrap
        allowOverlap).mp hfc
      rw [chanFold_ok pick st.img st.pattern cfg protectWrap allowOverlap
        (List.range st.img.chans) (fun _ _ _ => false)
        (fun q hq => hok q (List.mem_range.mp hq))]
      simp only [Except.map]
      refine congrArg Except.ok ?_
      funext r c k2
      by_cases hk2 : k2 ∈ List.range st.img.chans ∧ r < st.img.rows ∧ c < st.img.cols
      · rw [if_pos hk2, if_pos ⟨hk2.2.1, hk2.2.2, List.mem_range.mp hk2.1⟩]
        obtain ⟨m, hm⟩ := hok k2 (List.mem_range.mp hk2.1)
        unfold okMask
        rw [hm]
      · rw [if_neg hk2, if_neg ?_]
        rintro ⟨hr, hc, hk⟩
        exact hk2 ⟨List.mem_range.mpr hk, hr, hc⟩
    · unfold firstChanError at hfc
      rw [chanFold_err pick st.img st.pattern cfg protectWrap allowOverlap
        (List.range st.img.chans) (fun _ _ _ => false) e hfc]
      rfl

/-- C10: `valid_locations` with the array writes made explicit never writes
into `img` or `pattern` (every in-place write targets the per-channel
working mask or the fresh output buffer), and the returned mask does not
depend on any pre-existing content of the output state: it is freshly
computed from the inputs alone. -/
theorem C10_no_input_mutation (pick : EdgeSet → Int × Int) (st1 st2 : VLState)
    (cfg : AlgoConfig) (protectWrap : Bool) (allowOverlap : OverlapArg)
    (h1 : st1.img = st2.img) (h2 : st1.pattern = st2.pattern) :
    (match valid_locations_state pick st1 cfg protectWrap allowOverlap with
      | .ok st3 => st3.img = st1.img ∧ st3.pattern = st1.pattern
      | .error _ => True) ∧
    (valid_locations_state pick st1 cfg protectWrap allowOverlap).map VLState.out =
      (valid_locations_state pick st2 cfg protectWrap allowOverlap).map VLState.out := by
  constructor
  · rcases hvs : valid_locations_state pick st1 cfg protectWrap allowOverlap with e | st3
    · exact trivial
    · show st3.img = st1.img ∧ st3.pattern = st1.pattern
      unfold valid_locations_state at hvs
      split at hvs
      · cases hvs
      · rcases hcf : chanFold pick st1.img st1.pattern cfg protectWrap allowOverlap
            (List.range st1.img.chans) (fun _ _ _ => false) with e2 | out
        · rw [hcf] at hvs
          cases hvs
        · rw [hcf] at hvs
          simp only [Except.map, Except.ok.injEq] at hvs
          subst hvs
          exact ⟨rfl, rfl⟩
  · unfold valid_locations_state
    rw [h1, h2]

/-- Witness for C10 at a concrete input: two states sharing image and
pattern but holding different pre-existing output buffers. -/
theorem C10_witness :
    (match valid_locations_state pickMin
        ⟨⟨1, 1, 1, fun _ _ _ => 0⟩, ⟨1, 1, 1, fun _ _ _ => 0⟩, fun _ _ _ => true⟩
        ⟨"brute_force", .scalar 0, .scalar 0, 0⟩ true (.scalar false) with
      | .ok st3 => st3.img = ⟨1, 1, 1, fun _ _ _ => 0⟩ ∧ st3.pattern = ⟨1, 1, 1, fun _ _ _ => 0⟩
      | .error _ => True) ∧
    (valid_locations_state pickMin
        ⟨⟨1, 1, 1, fun _ _ _ => 0⟩, ⟨1, 1, 1, fun _ _ _ => 0⟩, fun _ _ _ => true⟩
        ⟨"brute_force", .scalar 0, .scalar 0, 0⟩ true (.scalar false)).map VLState.out =
      (valid_locations_state pickMin
        ⟨⟨1, 1, 1, fun _ _ _ => 0⟩, ⟨1, 1, 1, fun _ _ _ => 0⟩, fun _ _ _ => false⟩
        ⟨"brute_force", .scalar 0, .scalar 0, 0⟩ true (.scalar false)).map VLState.out := by
  have h := C10_no_input_mutation pickMin
    ⟨⟨1, 1, 1, fun _ _ _ => 0⟩, ⟨1, 1, 1, fun _ _ _ => 0⟩, fun _ _ _ => true⟩
    ⟨⟨1, 1, 1, fun _ _ _ => 0⟩, ⟨1, 1, 1, fun _ _ _ => 0⟩, fun _ _ _ => false⟩
    ⟨"brute_force", .scalar 0, .scalar 0, 0⟩ true (.scalar false) rfl rfl
  exact ⟨h.1, h.2⟩

/-! ### C1: edge_tracing is equivalent to brute_force -/

lemma bool_eq_of_false_iff {a b : Bool} (h : a = false ↔ b = false) : a = b := by
  cases a <;> cases b <;> simp_all

lemma startRect_false_iff {pRows pCols : Nat} {m : Mask2} {p : Int × Int} {r c : Nat} :
    setFalseRect m (max 0 (p.1 - pRows + 1)) p.1 (max 0 (p.2 - pCols + 1)) p.2 r c = false ↔
      covers pRows pCols p r c ∨ m r c = false := by
  rw [setFalseRect_false_iff]
  unfold covers
  constructor
  · rintro (h | h)
    · exact Or.inl (by omega)
    · exact Or.inr h
  · rintro (h | h)
    · exact Or.inl (by omega)
    · exact Or.inr h

lemma moveRowPass_false_iff {pRows pCols : Nat} {m : Mask2} {ai aj ci cj : Int} {r c : Nat} :
    (if ai < 0 then
        setFalseRect m (max 0 (ci - pRows + 1)) (max 0 (ci - pRows + 1) - ai - 1)
          (max 0 (cj - pCols + 1)) cj
      else if ai > 0 then
        setFalseRect m (ci - ai + 1) ci (max 0 (cj - pCols + 1)) cj
      else m) r c = false ↔
      stripRowP pRows pCols ai aj ci cj r c ∨ m r c = false := by
  unfold stripRowP
  rcases lt_trichotomy ai 0 with hai | hai | hai
  · rw [if_pos hai, setFalseRect_false_iff]
    constructor
    · rintro (h | h)
      · exact Or.inl (Or.inl ⟨hai, h⟩)
      · exact Or.inr h
    · rintro ((⟨-, h⟩ | ⟨h0, -⟩) | h)
      · exact Or.inl h
      · exact absurd h0 (by omega)
      · exact Or.inr h
  · subst hai
    rw [if_neg (by omega), if_neg (by omega)]
    constructor
    · exact fun h => Or.inr h
    · rintro ((⟨h0, -⟩ | ⟨h0, -⟩) | h)
      · exact absurd h0 (by omega)
      · exact absurd h0 (by omega)
      · exact h
  · rw [if_neg (by omega), if_pos (by omega), setFalseRect_false_iff]
    constructor
    · rintro (h | h)
      · exact Or.inl (Or.inr ⟨hai, h⟩)
      · exact Or.inr h
    · rintro ((⟨h0, -⟩ | ⟨-, h⟩) | h)
      · exact absurd h0 (by omega)
      · exact Or.inl h
      · exact Or.inr h

lemma moveColPass_false_iff {pRows pCols : Nat} {m : Mask2} {ai aj ci cj : Int} {r c : Nat} :
    (if aj < 0 then
        setFalseRect m (max 0 (ci - pRows + 1)) ci (max 0 (cj - pCols + 1))
          (max 0 (cj - pCols + 1) - aj - 1)
      else if aj > 0 then
        setFalseRect m (max 0 (ci - pRows + 1)) ci (cj - aj + 1) cj
      else m) r c = false ↔
      stripColP pRows pCols ai aj ci cj r c ∨ m r c = false := by
  unfold stripColP
  rcases lt_trichotomy aj 0 with haj | haj | haj
  · rw [if_pos haj, setFalseRect_false_iff]
    constructor
    · rintro (h | h)
      · exact Or.inl (Or.inl ⟨haj, h⟩)
      · exact Or.inr h
    · rintro ((⟨-, h⟩ | ⟨h0, -⟩) | h)
      · exact Or.inl h
      · exact absurd h0 (by omega)
      · exact Or.inr h
  · subst haj
    rw [if_neg (by omega), if_neg (by omega)]
    constructor
    · exact fun h => Or.inr h
    · rintro ((⟨h0, -⟩ | ⟨h0, -⟩) | h)
      · exact absurd h0 (by omega)
      · exact absurd h0 (by omega)
      · exact h
  · rw [if_neg (by omega), if_pos (by omega), setFalseRect_false_iff]
    constructor
    · rintro (h | h)
      · exact Or.inl (Or.inr ⟨haj, h⟩)
      · exact Or.inr h
    · rintro ((⟨h0, -⟩ | ⟨-, h⟩) | h)
      · exact absurd h0 (by omega)
      · exact Or.inl h
      · exact Or.inr h

lemma applyMove_false_iff {pRows pCols : Nat} {m : Mask2} {ai aj ci cj : Int} {r c : Nat} :
    applyMove pRows pCols m ai aj ci cj r c = false ↔
      stripRowP pRows pCols ai aj ci cj r c ∨ stripColP pRows pCols ai aj ci cj r c ∨
        m r c = false := by
  simp only [applyMove]
  rw [moveColPass_false_iff, moveRowPass_false_iff]
  tauto

lemma applyMove_preserve_false {pRows pCols : Nat} {m : Mask2} {ai aj ci cj : Int} {r c : Nat}
    (h : m r c = false) : applyMove pRows pCols m ai aj ci cj r c = false :=
  applyMove_false_iff.mpr (Or.inr (Or.inr h))

lemma erase_sdiff_eq {α : Type _} [DecidableEq α] (s X : Finset α) (p : α) :
    (s.erase p) \ X = s \ insert p X := by
  ext x
  simp only [Finset.mem_sdiff, Finset.mem_erase, Finset.mem_insert]
  tauto

lemma image_pos_succ (ci cj di dj : Int) (L : Nat) :
    (Finset.Icc (1 : Int) ((L : Int) + 1)).image (fun k => (ci + k * di, cj + k * dj)) =
      insert (ci + di, cj + dj)
        ((Finset.Icc (1 : Int) (L : Int)).image
          (fun k => (ci + di + k * di, cj + dj + k * dj))) := by
  ext x
  simp only [Finset.mem_image, Finset.mem_insert, Finset.mem_Icc]
  constructor
  · rintro ⟨k, ⟨hk1, hk2⟩, rfl⟩
    by_cases h1 : k = 1
    · subst h1
      left
      rw [Prod.mk.injEq]
      exact ⟨by ring, by ring⟩
    · right
      refine ⟨k - 1, ⟨by omega, by omega⟩, ?_⟩
      rw [Prod.mk.injEq]
      exact ⟨by ring, by ring⟩
  · rintro (rfl | ⟨k, ⟨hk1, hk2⟩, rfl⟩)
    · refine ⟨1, ⟨le_refl 1, by omega⟩, ?_⟩
      rw [Prod.mk.injEq]
      exact ⟨by ring, by ring⟩
    · refine ⟨k + 1, ⟨by omega, by omega⟩, ?_⟩
      rw [Prod.mk.injEq]
      exact ⟨by ring, by ring⟩

lemma edgeLength_spec (iRows iCols : Nat) (di dj : Int) :
    ∀ (fuel : Nat) (ci cj : Int) (s : EdgeSet), s.card ≤ fuel →
      (∀ k : Int, 1 ≤ k → k ≤ ((edgeLength iRows iCols di dj fuel ci cj s).1 : Int) →
        (ci + k * di, cj + k * dj) ∈ s ∧ 0 ≤ ci + k * di ∧ ci + k * di < (iRows : Int) ∧
          0 ≤ cj + k * dj ∧ cj + k * dj < (iCols : Int)) ∧
      (edgeLength iRows iCols di dj fuel ci cj s).2 =
        s \ (Finset.Icc (1 : Int) ((edgeLength iRows iCols di dj fuel ci cj s).1 : Int)).image
          (fun k => (ci + k * di, cj + k * dj)) ∧
      ((di ≠ 0 ∧ dj ≠ 0) → (edgeLength iRows iCols di dj fuel ci cj s).1 ≤ 1) := by
  intro fuel
  induction fuel with
  | zero =>
    intro ci cj s hcard
    refine ⟨?_, ?_, ?_⟩
    · intro k hk1 hk2
      simp only [edgeLength] at hk2
      omega
    · simp [edgeLength]
    · intro _
      simp [edgeLength]
  | succ fuel ih =>
    intro ci cj s hcard
    simp only [edgeLength]
    split
    · rename_i hcond
      obtain ⟨hbnd, hmem⟩ := hcond
      split
      · -- diagonal: a single step
        rename_i hdiag
        refine ⟨?_, ?_, ?_⟩
        · intro k hk1 hk2
          simp only [Nat.cast_one] at hk2
          have hk : k = 1 := by omega
          subst hk
          refine ⟨by simpa only [one_mul] using hmem, ?_⟩
          simp only [one_mul]
          omega
        · simp only [Nat.cast_one, Finset.Icc_self, Finset.image_singleton, one_mul,
            Finset.erase_eq]
        · intro _
          exact le_refl 1
      · -- orthogonal: one step then the recursive run
        rename_i hdiag
        have hcard2 : (s.erase (ci + di, cj + dj)).card ≤ fuel := by
          rw [Finset.card_erase_of_mem hmem]
          omega
        obtain ⟨iha, ihb, ihc⟩ := ih (ci + di) (cj + dj) (s.erase (ci + di, cj + dj)) hcard2
        refine ⟨?_, ?_, ?_⟩
        · intro k hk1 hk2
          push_cast at hk2
          by_cases hk : k = 1
          · subst hk
            refine ⟨by simpa only [one_mul] using hmem, ?_⟩
            simp only [one_mul]
            omega
          · have hstep := iha (k - 1) (by omega) (by omega)
            have e1 : ci + di + (k - 1) * di = ci + k * di := by ring
            have e2 : cj + dj + (k - 1) * dj = cj + k * dj := by ring
            rw [e1, e2] at hstep
            exact ⟨Finset.mem_of_mem_erase hstep.1, hstep.2⟩
        · rw [ihb, erase_sdiff_eq]
          congr 1
          push_cast
          rw [image_pos_succ]
        · intro hd
          exact absurd hd hdiag
    · rename_i hcond
      refine ⟨?_, ?_, ?_⟩
      · intro k hk1 hk2
        simp only [Nat.cast_zero] at hk2
        omega
      · simp
      · intro _
        simp

lemma nextEdgeScan_spec (iRows iCols : Nat) (ci cj : Int) :
    ∀ (ds : List (Int × Int)) (s : EdgeSet), (∀ d ∈ ds, d ∈ DIRECTIONS) →
      ((nextEdgeScan iRows iCols ci cj ds s).1 = none ∧
        (nextEdgeScan iRows iCols ci cj ds s).2 = s) ∨
      (∃ di dj : Int, ∃ L : Nat, (di, dj) ∈ DIRECTIONS ∧ 1 ≤ L ∧
        (nextEdgeScan iRows iCols ci cj ds s).1 = some (di * L, dj * L) ∧
        ((di ≠ 0 ∧ dj ≠ 0) → L = 1) ∧
        (∀ k : Int, 1 ≤ k → k ≤ (L : Int) →
          (ci + k * di, cj + k * dj) ∈ s ∧ 0 ≤ ci + k * di ∧ ci + k * di < (iRows : Int) ∧
            0 ≤ cj + k * dj ∧ cj + k * dj < (iCols : Int)) ∧
        (nextEdgeScan iRows iCols ci cj ds s).2 =
          s \ (Finset.Icc (1 : Int) (L : Int)).image (fun k => (ci + k * di, cj + k * dj))) := by
  intro ds
  induction ds with
  | nil =>
    intro s _
    exact Or.inl ⟨rfl, rfl⟩
  | cons d ds ih =>
    intro s hds
    obtain ⟨ela, elb, elc⟩ := edgeLength_spec iRows iCols d.1 d.2 s.card ci cj s (le_refl _)
    simp only [nextEdgeScan]
    split
    · rename_i hne
      refine Or.inr ⟨d.1, d.2, (edgeLength iRows iCols d.1 d.2 s.card ci cj s).1,
        hds d (by simp), by omega, rfl, ?_, ela, elb⟩
      intro hdg
      have := elc hdg
      omega
    · rename_i hne
      have hL0 : (edgeLength iRows iCols d.1 d.2 s.card ci cj s).1 = 0 := by omega
      have hs : (edgeLength iRows iCols d.1 d.2 s.card ci cj s).2 = s := by
        rw [elb, hL0]
        simp
      rw [hs]
      exact ih s (fun q hq => hds q (by simp [hq]))

lemma strips_subset_run (pRows pCols : Nat) (hp1 : 1 ≤ pRows) (hp3 : 1 ≤ pCols)
    (di dj : Int) (hd : (di, dj) ∈ DIRECTIONS) (L : Nat) (hL : 1 ≤ L)
    (hdiag : di ≠ 0 ∧ dj ≠ 0 → L = 1) (ci cj : Int)
    (hni : 0 ≤ ci + (L : Int) * di) (hnj : 0 ≤ cj + (L : Int) * dj) (r c : Nat)
    (h : stripRowP pRows pCols (di * L) (dj * L) (ci + di * L) (cj + dj * L) r c ∨
      stripColP pRows pCols (di * L) (dj * L) (ci + di * L) (cj + dj * L) r c) :
    ∃ k : Int, 1 ≤ k ∧ k ≤ (L : Int) ∧ covers pRows pCols (ci + k * di, cj + k * dj) r c := by
  unfold stripRowP stripColP at h
  simp only [DIRECTIONS, List.mem_cons, List.not_mem_nil, or_false, Prod.mk.injEq] at hd
  rcases hd with hcUL | hd
  · -- (-1, -1)
    obtain ⟨rfl, rfl⟩ := hcUL
    have hL1 : L = 1 := hdiag (by norm_num)
    subst hL1
    exact ⟨1, le_refl 1, le_refl 1, by unfold covers; dsimp only; push_cast at h ⊢; omega⟩
  rcases hd with hcUR | hd
  · -- (-1, 1)
    obtain ⟨rfl, rfl⟩ := hcUR
    have hL1 : L = 1 := hdiag (by norm_num)
    subst hL1
    exact ⟨1, le_refl 1, le_refl 1, by unfold covers; dsimp only; push_cast at h ⊢; omega⟩
  rcases hd with hcDR | hd
  · -- (1, 1)
    obtain ⟨rfl, rfl⟩ := hcDR
    have hL1 : L = 1 := hdiag (by norm_num)
    subst hL1
    exact ⟨1, le_refl 1, le_refl 1, by unfold covers; dsimp only; push_cast at h ⊢; omega⟩
  rcases hd with hcDL | hd
  · -- (1, -1)
    obtain ⟨rfl, rfl⟩ := hcDL
    have hL1 : L = 1 := hdiag (by norm_num)
    subst hL1
    exact ⟨1, le_refl 1, le_refl 1, by unfold covers; dsimp only; push_cast at h ⊢; omega⟩
  rcases hd with hcLt | hd
  · -- (0, -1): leftward run
    obtain ⟨rfl, rfl⟩ := hcLt
    by_cases hw : 1 ≤ (cj : Int) - c - pCols + 1
    · exact ⟨(cj : Int) - c - pCols + 1, by omega, by omega,
        by unfold covers; dsimp only; omega⟩
    · exact ⟨1, le_refl 1, by omega, by unfold covers; dsimp only; omega⟩
  rcases hd with hcUp | hd
  · -- (-1, 0): upward run
    obtain ⟨rfl, rfl⟩ := hcUp
    by_cases hw : 1 ≤ (ci : Int) - r - pRows + 1
    · exact ⟨(ci : Int) - r - pRows + 1, by omega, by omega,
        by unfold covers; dsimp only; omega⟩
    · exact ⟨1, le_refl 1, by omega, by unfold covers; dsimp only; omega⟩
  rcases hd with hcRt | hcDn
  · -- (0, 1): rightward run
    obtain ⟨rfl, rfl⟩ := hcRt
    exact ⟨(c : Int) - cj, by omega, by omega, by unfold covers; dsimp only; omega⟩
  · -- (1, 0): downward run
    obtain ⟨rfl, rfl⟩ := hcDn
    exact ⟨(r : Int) - ci, by omega, by omega, by unfold covers; dsimp only; omega⟩

lemma run_covers_subset (pRows pCols : Nat) (hp1 : 1 ≤ pRows) (hp3 : 1 ≤ pCols)
    (di dj : Int) (hd : (di, dj) ∈ DIRECTIONS) (L : Nat) (hL : 1 ≤ L)
    (hdiag : di ≠ 0 ∧ dj ≠ 0 → L = 1) (ci cj : Int)
    (hni : 0 ≤ ci + (L : Int) * di) (hnj : 0 ≤ cj + (L : Int) * dj)
    (k : Int) (hk1 : 1 ≤ k) (hkL : k ≤ (L : Int)) (r c : Nat)
    (h : covers pRows pCols (ci + k * di, cj + k * dj) r c) :
    covers pRows pCols (ci, cj) r c ∨
      stripRowP pRows pCols (di * L) (dj * L) (ci + di * L) (cj + dj * L) r c ∨
      stripColP pRows pCols (di * L) (dj * L) (ci + di * L) (cj + dj * L) r c := by
  unfold covers at h ⊢
  unfold stripRowP stripColP
  dsimp only at h ⊢
  simp only [DIRECTIONS, List.mem_cons, List.not_mem_nil, or_false, Prod.mk.injEq] at hd
  rcases hd with hdUL | hd
  · obtain ⟨rfl, rfl⟩ := hdUL
    have hL1 : L = 1 := hdiag (by norm_num)
    subst hL1
    omega
  rcases hd with hdUR | hd
  · obtain ⟨rfl, rfl⟩ := hdUR
    have hL1 : L = 1 := hdiag (by norm_num)
    subst hL1
    omega
  rcases hd with hdDR | hd
  · obtain ⟨rfl, rfl⟩ := hdDR
    have hL1 : L = 1 := hdiag (by norm_num)
    subst hL1
    omega
  rcases hd with hdDL | hd
  · obtain ⟨rfl, rfl⟩ := hdDL
    have hL1 : L = 1 := hdiag (by norm_num)
    subst hL1
    omega
  rcases hd with hdLt | hd
  · obtain ⟨rfl, rfl⟩ := hdLt
    omega
  rcases hd with hdUp | hd
  · obtain ⟨rfl, rfl⟩ := hdUp
    omega
  rcases hd with hdRt | hdDn
  · obtain ⟨rfl, rfl⟩ := hdRt
    omega
  · obtain ⟨rfl, rfl⟩ := hdDn
    omega

lemma traceLoop_spec (iRows iCols pRows pCols : Nat) (hp1 : 1 ≤ pRows) (hp3 : 1 ≤ pCols) :
    ∀ (fuel : Nat) (ci cj : Int) (s : EdgeSet) (m : Mask2), s.card + 1 ≤ fuel →
      (∀ r c, covers pRows pCols (ci, cj) r c → m r c = false) →
      (traceLoop iRows iCols pRows pCols fuel ci cj s m).1 ⊆ s ∧
      (∀ r c, ((traceLoop iRows iCols pRows pCols fuel ci cj s m).2 r c = false ↔
        m r c = false ∨ ∃ p ∈ s \ (traceLoop iRows iCols pRows pCols fuel ci cj s m).1,
          covers pRows pCols p r c)) := by
  intro fuel
  induction fuel with
  | zero =>
    intro ci cj s m hf hm
    omega
  | succ fuel ih =>
    intro ci cj s m hf hm
    rcases nextEdgeScan_spec iRows iCols ci cj DIRECTIONS s (fun d hd => hd) with
      ⟨hnone, hsec⟩ | ⟨di, dj, L, hdir, hL, hsome, hdiag, hrun, hsec⟩
    · have hpair : _get_next_edge_from_pixel ci cj iRows iCols s = (none, s) :=
        Prod.ext_iff.mpr ⟨hnone, hsec⟩
      simp only [traceLoop, hpair]
      refine ⟨Finset.Subset.refl s, ?_⟩
      intro r c
      simp
    · have hpair : _get_next_edge_from_pixel ci cj iRows iCols s =
          (some (di * L, dj * L),
            s \ (Finset.Icc (1 : Int) (L : Int)).image (fun k => (ci + k * di, cj + k * dj))) :=
        Prod.ext_iff.mpr ⟨hsome, hsec⟩
      simp only [traceLoop, hpair]
      have hL1 : (1 : Int) ≤ (L : Int) := by exact_mod_cast hL
      obtain ⟨hmem1, -⟩ := hrun 1 (le_refl 1) hL1
      obtain ⟨hmemL, hniA, hniB, hnjA, hnjB⟩ := hrun L hL1 (le_refl _)
      have hni : 0 ≤ ci + (L : Int) * di := hniA
      have hnj : 0 ≤ cj + (L : Int) * dj := hnjA
      have hposmem : ∀ k : Int, 1 ≤ k → k ≤ (L : Int) →
          (ci + k * di, cj + k * dj) ∈
            (Finset.Icc (1 : Int) (L : Int)).image (fun k => (ci + k * di, cj + k * dj)) := by
        intro k hk1 hk2
        exact Finset.mem_image.mpr ⟨k, Finset.mem_Icc.mpr ⟨hk1, hk2⟩, rfl⟩
      have hcardA : (s \ (Finset.Icc (1 : Int) (L : Int)).image
          (fun k => (ci + k * di, cj + k * dj))).card + 1 ≤ fuel := by
        have hsubE : s \ (Finset.Icc (1 : Int) (L : Int)).image
            (fun k => (ci + k * di, cj + k * dj)) ⊆ s.erase (ci + 1 * di, cj + 1 * dj) := by
          intro x hx
          obtain ⟨hxs, hxn⟩ := Finset.mem_sdiff.mp hx
          refine Finset.mem_erase.mpr ⟨?_, hxs⟩
          intro hxe
          exact hxn (hxe ▸ hposmem 1 (le_refl 1) hL1)
        have := Finset.card_le_card hsubE
        rw [Finset.card_erase_of_mem hmem1] at this
        have hpos : 0 < s.card := Finset.card_pos.mpr ⟨_, hmem1⟩
        omega
      have hmove : ∀ r c, covers pRows pCols (ci + di * (L : Int), cj + dj * (L : Int)) r c →
          applyMove pRows pCols m (di * L) (dj * L) (ci + di * L) (cj + dj * L) r c = false := by
        intro r c hcov
        have hcov2 : covers pRows pCols (ci + (L : Int) * di, cj + (L : Int) * dj) r c := by
          rw [show ci + (L : Int) * di = ci + di * (L : Int) from by ring,
            show cj + (L : Int) * dj = cj + dj * (L : Int) from by ring]
          exact hcov
        rcases run_covers_subset pRows pCols hp1 hp3 di dj hdir L hL hdiag ci cj hni hnj
            (L : Int) hL1 (le_refl _) r c hcov2 with hc | hc | hc
        · exact applyMove_preserve_false (hm r c hc)
        · exact applyMove_false_iff.mpr (Or.inl hc)
        · exact applyMove_false_iff.mpr (Or.inr (Or.inl hc))
      obtain ⟨hsub, hiff⟩ := ih (ci + di * L) (cj + dj * L)
        (s \ (Finset.Icc (1 : Int) (L : Int)).image (fun k => (ci + k * di, cj + k * dj)))
        (applyMove pRows pCols m (di * L) (dj * L) (ci + di * L) (cj + dj * L)) hcardA hmove
      refine ⟨hsub.trans (Finset.sdiff_subset), ?_⟩
      intro r c
      rw [hiff r c, applyMove_false_iff]
      constructor
      · rintro ((hst | hst | hmf) | ⟨p, hp, hcov⟩)
        · obtain ⟨k, hk1, hk2, hcovk⟩ := strips_subset_run pRows pCols hp1 hp3 di dj hdir L hL
            hdiag ci cj hni hnj r c (Or.inl hst)
          refine Or.inr ⟨(ci + k * di, cj + k * dj), ?_, hcovk⟩
          rw [Finset.mem_sdiff]
          refine ⟨(hrun k hk1 hk2).1, ?_⟩
          intro hmemT
          have := Finset.mem_sdiff.mp (hsub hmemT)
          exact this.2 (hposmem k hk1 hk2)
        · obtain ⟨k, hk1, hk2, hcovk⟩ := strips_subset_run pRows pCols hp1 hp3 di dj hdir L hL
            hdiag ci cj hni hnj r c (Or.inr hst)
          refine Or.inr ⟨(ci + k * di, cj + k * dj), ?_, hcovk⟩
          rw [Finset.mem_sdiff]
          refine ⟨(hrun k hk1 hk2).1, ?_⟩
          intro hmemT
          have := Finset.mem_sdiff.mp (hsub hmemT)
          exact this.2 (hposmem k hk1 hk2)
        · exact Or.inl hmf
        · obtain ⟨hpA, hpT⟩ := Finset.mem_sdiff.mp hp
          exact Or.inr ⟨p, Finset.mem_sdiff.mpr
            ⟨(Finset.mem_sdiff.mp hpA).1, hpT⟩, hcov⟩
      · rintro (hmf | ⟨p, hp, hcov⟩)
        · exact Or.inl (Or.inr (Or.inr hmf))
        · obtain ⟨hps, hpT⟩ := Finset.mem_sdiff.mp hp
          by_cases hpA : p ∈ s \ (Finset.Icc (1 : Int) (L : Int)).image
              (fun k => (ci + k * di, cj + k * dj))
          · exact Or.inr ⟨p, Finset.mem_sdiff.mpr ⟨hpA, hpT⟩, hcov⟩
          · have hpimg : p ∈ (Finset.Icc (1 : Int) (L : Int)).image
                (fun k => (ci + k * di, cj + k * dj)) := by
              by_contra hpn
              exact hpA (Finset.mem_sdiff.mpr ⟨hps, hpn⟩)
            obtain ⟨k, hkmem, hkp⟩ := Finset.mem_image.mp hpimg
            obtain ⟨hk1, hk2⟩ := Finset.mem_Icc.mp hkmem
            subst hkp
            rcases run_covers_subset pRows pCols hp1 hp3 di dj hdir L hL hdiag ci cj hni hnj
                k hk1 hk2 r c hcov with hc | hc | hc
            · exact Or.inl (Or.inr (Or.inr (hm r c hc)))
            · exact Or.inl (Or.inl hc)
            · exact Or.inl (Or.inr (Or.inl hc))

lemma edgeTraceLoop_spec (pick : EdgeSet → Int × Int)
    (hpick : ∀ s : EdgeSet, s.Nonempty → pick s ∈ s)
    (iRows iCols pRows pCols : Nat) (hp1 : 1 ≤ pRows) (hp3 : 1 ≤ pCols) :
    ∀ (fuel : Nat) (s : EdgeSet) (m : Mask2), s.card ≤ fuel → ∀ r c,
      (edgeTraceLoop pick iRows iCols pRows pCols fuel s m r c = false ↔
        m r c = false ∨ ∃ p ∈ s, covers pRows pCols p r c) := by
  intro fuel
  induction fuel with
  | zero =>
    intro s m hf r c
    have hs : s = ∅ := Finset.card_eq_zero.mp (by omega)
    subst hs
    simp [edgeTraceLoop]
  | succ fuel ih =>
    intro s m hf r c
    by_cases hse : s = ∅
    · subst hse
      simp [edgeTraceLoop]
    · have hne : s.Nonempty := Finset.nonempty_iff_ne_empty.mpr hse
      have hpm := hpick s hne
      simp only [edgeTraceLoop, if_neg hse]
      have hm2 : ∀ r2 c2, covers pRows pCols (pick s) r2 c2 →
          setFalseRect m (max 0 ((pick s).1 - (pRows : Int) + 1)) (pick s).1
            (max 0 ((pick s).2 - (pCols : Int) + 1)) (pick s).2 r2 c2 = false :=
        fun r2 c2 hc => startRect_false_iff.mpr (Or.inl hc)
      obtain ⟨hsub, hiff⟩ := traceLoop_spec iRows iCols pRows pCols hp1 hp3
        ((s.erase (pick s)).card + 1) (pick s).1 (pick s).2 (s.erase (pick s))
        (setFalseRect m (max 0 ((pick s).1 - (pRows : Int) + 1)) (pick s).1
          (max 0 ((pick s).2 - (pCols : Int) + 1)) (pick s).2) (le_refl _)
        (fun r2 c2 hc => hm2 r2 c2 hc)
      have hcard3 : (traceLoop iRows iCols pRows pCols ((s.erase (pick s)).card + 1)
          (pick s).1 (pick s).2 (s.erase (pick s))
          (setFalseRect m (max 0 ((pick s).1 - (pRows : Int) + 1)) (pick s).1
            (max 0 ((pick s).2 - (pCols : Int) + 1)) (pick s).2)).1.card ≤ fuel := by
        have h1 := Finset.card_le_card hsub
        have h2 : (s.erase (pick s)).card = s.card - 1 := Finset.card_erase_of_mem hpm
        have h3 : 0 < s.card := Finset.card_pos.mpr hne
        omega
      rw [ih _ _ hcard3 r c, hiff r c, startRect_false_iff]
      constructor
      · rintro (((hc | hmf) | ⟨q, hq, hcov⟩) | ⟨q, hq, hcov⟩)
        · exact Or.inr ⟨pick s, hpm, hc⟩
        · exact Or.inl hmf
        · exact Or.inr ⟨q, Finset.mem_of_mem_erase (Finset.mem_sdiff.mp hq).1, hcov⟩
        · exact Or.inr ⟨q, Finset.mem_of_mem_erase (hsub hq), hcov⟩
      · rintro (hmf | ⟨q, hq, hcov⟩)
        · exact Or.inl (Or.inl (Or.inr hmf))
        · by_cases hqp : q = pick s
          · subst hqp
            exact Or.inl (Or.inl (Or.inl hcov))
          · have hq2 : q ∈ s.erase (pick s) := Finset.mem_erase.mpr ⟨hqp, hq⟩
            by_cases hqT : q ∈ (traceLoop iRows iCols pRows pCols
                ((s.erase (pick s)).card + 1) (pick s).1 (pick s).2 (s.erase (pick s))
                (setFalseRect m (max 0 ((pick s).1 - (pRows : Int) + 1)) (pick s).1
                  (max 0 ((pick s).2 - (pCols : Int) + 1)) (pick s).2)).1
            · exact Or.inr ⟨q, hqT, hcov⟩
            · exact Or.inl (Or.inr ⟨q, Finset.mem_sdiff.mpr ⟨hq2, hqT⟩, hcov⟩)

lemma edgeFinset_mem_iff {iRows iCols : Nat} {fg : Mask2} {p : Int × Int} :
    p ∈ edgeFinset iRows iCols fg ↔
      ∃ q ∈ edgePixels iRows iCols fg, ((q.1 : Int), (q.2 : Int)) = p := by
  unfold edgeFinset
  rw [List.mem_toFinset, List.mem_map]

/-- The edge-tracing strategy computes exactly the brute_force mask, for any
popping order and any nonempty pattern. -/
lemma edgeTracingMask_eq_bruteMask (pick : EdgeSet → Int × Int)
    (hpick : ∀ s : EdgeSet, s.Nonempty → pick s ∈ s)
    (chanImg : Nat → Nat → ℚ) (minVal : ℚ) (iRows iCols pRows pCols : Nat)
    (hp1 : 1 ≤ pRows) (hp3 : 1 ≤ pCols) :
    edgeTracingMask pick chanImg minVal iRows iCols pRows pCols =
      bruteMask chanImg minVal iRows iCols pRows pCols := by
  funext r c
  apply bool_eq_of_false_iff
  unfold edgeTracingMask bruteMask
  rw [edgeTraceLoop_spec pick hpick iRows iCols pRows pCols hp1 hp3 _ _ _ (le_refl _) r c,
    foldl_invalidate_false_iff]
  constructor
  · rintro (hmf | ⟨p, hp, hcov⟩)
    · exact Or.inl hmf
    · obtain ⟨q, hq, rfl⟩ := edgeFinset_mem_iff.mp hp
      exact Or.inr ⟨q, hq, hcov⟩
  · rintro (hmf | ⟨q, hq, hcov⟩)
    · exact Or.inl hmf
    · exact Or.inr ⟨((q.1 : Int), (q.2 : Int)),
        edgeFinset_mem_iff.mpr ⟨q, hq, rfl⟩, hcov⟩

lemma valid_locations_congr (pick : EdgeSet → Int × Int) (img pattern : Image3)
    (cfg1 cfg2 : AlgoConfig) (protectWrap : Bool) (allowOverlap : OverlapArg)
    (h : ∀ k, chanExcept pick img pattern cfg1 protectWrap allowOverlap k =
      chanExcept pick img pattern cfg2 protectWrap allowOverlap k) :
    valid_locations pick img pattern cfg1 protectWrap allowOverlap =
      valid_locations pick img pattern cfg2 protectWrap allowOverlap := by
  unfold valid_locations firstChanError
  have h2 : (fun k =>
      match chanExcept pick img pattern cfg1 protectWrap allowOverlap k with
      | Except.error e => some e
      | Except.ok _ => none) = (fun k =>
      match chanExcept pick img pattern cfg2 protectWrap allowOverlap k with
      | Except.error e => some e
      | Except.ok _ => none) := funext fun k => by rw [h k]
  have h3 : (fun r c k =>
      if r < img.rows ∧ c < img.cols ∧ k < img.chans then
        match chanExcept pick img pattern cfg1 protectWrap allowOverlap k with
        | Except.ok m => m r c
        | Except.error _ => false
      else false) = (fun r c k =>
      if r < img.rows ∧ c < img.cols ∧ k < img.chans then
        match chanExcept pick img pattern cfg2 protectWrap allowOverlap k with
        | Except.ok m => m r c
        | Except.error _ => false
      else false) := funext fun r => funext fun c => funext fun k => by rw [h k]
  rw [h2, h3]

lemma pickMin_mem (s : EdgeSet) (h : s.Nonempty) : pickMin s ∈ s := by
  unfold pickMin
  rw [dif_pos h]
  have hne2 : ((s.filter fun p => p.1 = (s.image Prod.fst).min' (h.image Prod.fst)).image
      Prod.snd).Nonempty := by
    obtain ⟨q0, hq0⟩ := Finset.mem_image.mp ((s.image Prod.fst).min'_mem (h.image Prod.fst))
    exact ⟨q0.2, Finset.mem_image.mpr ⟨q0, Finset.mem_filter.mpr ⟨hq0.1, hq0.2⟩, rfl⟩⟩
  obtain ⟨q, hq, hqs⟩ := Finset.mem_image.mp (Finset.min'_mem
    ((s.filter fun p => p.1 = (s.image Prod.fst).min' (h.image Prod.fst)).image Prod.snd)
    hne2)
  obtain ⟨hqmem, hqfst⟩ := Finset.mem_filter.mp hq
  have heq : ((s.image Prod.fst).min' (h.image Prod.fst),
      ((s.filter fun p => p.1 = (s.image Prod.fst).min' (h.image Prod.fst)).image
        Prod.snd).min' hne2) = q := by
    rw [Prod.ext_iff]
    exact ⟨hqfst.symm, hqs.symm⟩
  have hmem : q ∈ s := hqmem
  rw [← heq] at hmem
  exact hmem

/-- C1 counterexample: for a 0-row pattern the two strategies disagree. On a
2x2 image whose second column is foreground (`min_val = 0`), a 0x2 pattern
invalidates nothing under brute_force (every anchor rectangle is empty), but
the edge-tracing walk's incremental strip update for its one upward move
writes a nonempty strip, clearing the valid anchor `(1,0)`. -/
theorem C1_counterexample :
    (valid_locations pickMin ⟨2, 2, 1, fun _ j _ => if j = 1 then 1 else 0⟩
        ⟨0, 2, 1, fun _ _ _ => 0⟩ ⟨"edge_tracing", .scalar 0, .scalar 0, 0⟩ true
        (.scalar false)).map (fun m => m 1 0 0) = .ok false ∧
    (valid_locations pickMin ⟨2, 2, 1, fun _ j _ => if j = 1 then 1 else 0⟩
        ⟨0, 2, 1, fun _ _ _ => 0⟩ ⟨"brute_force", .scalar 0, .scalar 0, 0⟩ true
        (.scalar false)).map (fun m => m 1 0 0) = .ok true :=
  ⟨rfl, rfl⟩

/-- C1 amended: for every image, pattern and min_val configuration with
matching channel counts, `protect_wrap = true`, `allow_overlap = false`, and
a nonempty pattern (at least one row and one column), the edge-tracing and
brute_force strategies return identical results — masks and errors alike —
for every popping order of the edge-pixel set, hence for any foreground
topology, connected or not. -/
theorem C1_edge_tracing_equals_brute_force (pick : EdgeSet → Int × Int)
    (hpick : ∀ s : EdgeSet, s.Nonempty → pick s ∈ s) (img pattern : Image3)
    (mv tv : NumParam) (nb : Nat) (hp1 : 1 ≤ pattern.rows) (hp2 : 1 ≤ pattern.cols) :
    valid_locations pick img pattern ⟨"edge_tracing", mv, tv, nb⟩ true (.scalar false) =
      valid_locations pick img pattern ⟨"brute_force", mv, tv, nb⟩ true (.scalar false) := by
  apply valid_locations_congr
  intro k
  rw [chanExcept_edge_tracing, chanExcept_brute_force]
  cases hmv : resolveNum mv img.chans k minValSizeMsg with
  | error e => rfl
  | ok v =>
    dsimp only
    rw [edgeTracingMask_eq_bruteMask pick hpick (fun i j => img.val i j k) v img.rows
      img.cols pattern.rows pattern.cols hp1 hp2]

/-- Witness for C1's amended statement: the concrete 10x10 scenario with the
least-pixel popping order. -/
theorem C1_witness :
    valid_locations pickMin scenarioImg scenarioPattern
        ⟨"edge_tracing", .scalar 0, .scalar 0, 0⟩ true (.scalar false) =
      valid_locations pickMin scenarioImg scenarioPattern
        ⟨"brute_force", .scalar 0, .scalar 0, 0⟩ true (.scalar false) :=
  C1_edge_tracing_equals_brute_force pickMin pickMin_mem scenarioImg scenarioPattern
    (.scalar 0) (.scalar 0) 0 (by decide) (by decide)

end Trojai
